import Mathlib

/-!
Verification of the SIRENE/ORION reconciliation engine (`updatev7.py`).

The development shallowly embeds the matching core of the script:
text normalization (`normalize_name`), acronym extraction
(`extract_acronym`), fuzzy scoring (`match_score`), geographic blocking
(`create_sirene_by_dept`), candidate matching (`match_single_company`),
the workforce resolver (`fill_effectif` / `find_headquarters`) and the
orchestrator (`update_CRM`).

Strings are modelled through their character lists.  Python machine
floats never carry fractional values in the matching core (all score
components are integers), so scores are modelled as `Int`.
Functions whose Python counterparts recurse on structurally smaller
data are given an explicit fuel argument equal to the input length so
that every definition is structural and kernel-reducible; a fuel-
sufficiency lemma shows the fuel never runs out for those, while
`fill_effectif` keeps fuel as an honest model of its (potentially
unbounded) recursion.
-/

namespace Sirene

/-- Python whitespace characters (`\s` over the ASCII range; the script
only ever manipulates ASCII after the accent-folding step). -/
def isSpc (c : Char) : Bool :=
  c.toNat = 32 || c.toNat = 9 || c.toNat = 10 || c.toNat = 13 || c.toNat = 11 || c.toNat = 12

/-- Python regex word characters `\w` (`[A-Za-z0-9_]`; after accent
folding all characters are ASCII, so the Unicode cases of `\w` cannot
occur). -/
def isWord (c : Char) : Bool :=
  (97 ≤ c.toNat && c.toNat ≤ 122) || (65 ≤ c.toNat && c.toNat ≤ 90) ||
  (48 ≤ c.toNat && c.toNat ≤ 57) || c.toNat = 95

/-- Models `str.lower` on an ASCII character. -/
def pyLower (c : Char) : Char :=
  if 65 ≤ c.toNat && c.toNat ≤ 90 then Char.ofNat (c.toNat + 32) else c

/-- Models `str.upper` on an ASCII character. -/
def pyUpper (c : Char) : Char :=
  if 97 ≤ c.toNat && c.toNat ≤ 122 then Char.ofNat (c.toNat - 32) else c

/-- Modelled from the spec: the `lower` + NFKD-decompose + ASCII-encode
step of the normalizer is performed by the external `unicodedata`
module and the codec machinery, which are not part of the repository.
The spec describes it as "lower-cases, strips diacritics (decompose +
drop combining marks)"; we model it over a representative table of
accented Latin characters (non-breaking space decomposes to a plain
space under NFKD); characters outside the table and outside ASCII are
dropped, as `encode('ascii', 'ignore')` does. -/
def accentTable : List (Char × List Char) :=
  [('é', ['e']), ('è', ['e']), ('ê', ['e']), ('ë', ['e']),
   ('É', ['e']), ('È', ['e']), ('Ê', ['e']), ('Ë', ['e']),
   ('à', ['a']), ('â', ['a']), ('ä', ['a']), ('á', ['a']),
   ('À', ['a']), ('Â', ['a']), ('Ä', ['a']), ('Á', ['a']),
   ('î', ['i']), ('ï', ['i']), ('í', ['i']),
   ('Î', ['i']), ('Ï', ['i']), ('Í', ['i']),
   ('ô', ['o']), ('ö', ['o']), ('ó', ['o']),
   ('Ô', ['o']), ('Ö', ['o']), ('Ó', ['o']),
   ('ù', ['u']), ('û', ['u']), ('ü', ['u']), ('ú', ['u']),
   ('Ù', ['u']), ('Û', ['u']), ('Ü', ['u']), ('Ú', ['u']),
   ('ç', ['c']), ('Ç', ['c']), ('ﬁ', ['f', 'i']),
   (' ', [' '])]

/-- One character through `lower` + NFKD + ASCII-ignore. -/
def asciiFold (c : Char) : List Char :=
  if c.toNat < 128 then [pyLower c]
  else
    match accentTable.find? (fun p => p.1 == c) with
    | some p => p.2
    | none => []

/-- The whole-string accent folding pass. -/
def foldChars : List Char → List Char
  | [] => []
  | c :: r => asciiFold c ++ foldChars r

/-- Position just after the first `)`, if any (`[^)]*\)` can only stop
at the first closing parenthesis). -/
def splitAtClose : List Char → Option (List Char)
  | [] => none
  | c :: r => if c = ')' then some r else splitAtClose r

/-- Models `re.sub(r'\([^)]*\)', ' ', s)`: each `(`...first `)` group is
replaced by a single space; an unmatched `(` is kept.  Fuelled; fuel
`l.length` always suffices. -/
def removeParensF : Nat → List Char → List Char
  | 0, _ => []
  | _ + 1, [] => []
  | n + 1, c :: r =>
    if c = '(' then
      match splitAtClose r with
      | some r' => ' ' :: removeParensF n r'
      | none => '(' :: removeParensF n r
    else c :: removeParensF n r

def removeParens (l : List Char) : List Char := removeParensF l.length l

/-- Models `re.sub` of a word-boundary-delimited alternation of word-only
tokens (`\bcedex\b`, `\b(sarl|sa|...)\b`) replaces exactly the maximal
`\w`-runs that equal one of the alternatives by a single space:
a match must be flanked by word boundaries, every alternative consists
of word characters only, so a match is precisely a whole maximal run.
Fuelled; fuel `l.length` always suffices. -/
def subTokensF (alts : List (List Char)) : Nat → List Char → List Char
  | 0, _ => []
  | _ + 1, [] => []
  | n + 1, c :: r =>
    if isWord c then
      (if alts.contains ((c :: r).takeWhile isWord) then [' ']
       else (c :: r).takeWhile isWord) ++ subTokensF alts n ((c :: r).dropWhile isWord)
    else c :: subTokensF alts n r

def subTokens (alts : List (List Char)) (l : List Char) : List Char :=
  subTokensF alts l.length l

/-- The `cedex` token removed by `re.sub(r'\bcedex\b', ' ', s)`. -/
def cedexAlts : List (List Char) := [['c', 'e', 'd', 'e', 'x']]

/-- Legal forms removed by
`re.sub(r"\b(sarl|sa|sas|sasu|eurl|ei|sci|scop|snc|sc|sasf)\b", " ", s)`. -/
def legalAlts : List (List Char) :=
  [['s','a','r','l'], ['s','a'], ['s','a','s'], ['s','a','s','u'],
   ['e','u','r','l'], ['e','i'], ['s','c','i'], ['s','c','o','p'],
   ['s','n','c'], ['s','c'], ['s','a','s','f']]

/-- Models `re.sub(r"[^\w\s-]", " ", s)`: punctuation other than the hyphen
becomes a space. -/
def punctToSpace (c : Char) : Char :=
  if isWord c || isSpc c || c = '-' then c else ' '

/-- Models `re.sub(r'\s+', ' ', s)`: every maximal whitespace run becomes one
space.  Fuelled; fuel `l.length` always suffices. -/
def collapseF : Nat → List Char → List Char
  | 0, _ => []
  | _ + 1, [] => []
  | n + 1, c :: r =>
    if isSpc c then ' ' :: collapseF n (r.dropWhile isSpc)
    else c :: collapseF n r

def collapse (l : List Char) : List Char := collapseF l.length l

/-- Drop a trailing whitespace run (the right half of `str.strip`). -/
def dropTrailSpc : List Char → List Char
  | [] => []
  | c :: r =>
    if (dropTrailSpc r).isEmpty && isSpc c then []
    else c :: dropTrailSpc r

/-- Models `str.strip`. -/
def stripL (l : List Char) : List Char := dropTrailSpc (l.dropWhile isSpc)

/-- The normalization pipeline of `normalize_name` after the emptiness
guard, on character lists, in source order: lower/NFKD/ASCII folding,
parenthesized content removal, `cedex` removal, punctuation to spaces,
legal-form removal, whitespace collapse, strip. -/
def normalizeL (l : List Char) : List Char :=
  stripL (collapse (subTokens legalAlts
    ((subTokens cedexAlts (removeParens (foldChars l))).map punctToSpace)))

/-- Embeds `normalize_name` (updatev7.py, lines 52-81).  A missing (`NaN`)
input is not representable for a `String`-valued model; the
`not str(name).strip()` guard is the `stripL`-emptiness test. -/
def normalize_name (s : String) : String :=
  if (stripL s.data).isEmpty then "" else String.mk (normalizeL s.data)

/-! Section: Fuzzy scoring (`match_score`, `extract_acronym`) -/

/-- Maximal runs of characters satisfying `p` (`str.split()` tokens for
`p = not-whitespace`, `\w`-runs for `p = isWord`).  Fuelled; fuel
`l.length` always suffices. -/
def runsF (p : Char → Bool) : Nat → List Char → List (List Char)
  | 0, _ => []
  | _ + 1, [] => []
  | n + 1, c :: r =>
    if p c then (c :: r).takeWhile p :: runsF p n ((c :: r).dropWhile p)
    else runsF p n r

def runsBy (p : Char → Bool) (l : List Char) : List (List Char) :=
  runsF p l.length l

/-- Models `str.split()`: maximal non-whitespace runs. -/
def splitWsL (l : List Char) : List (List Char) := runsBy (fun c => !isSpc c) l

/-- Embeds `extract_acronym` (updatev7.py, lines 109-111): first character of
every whitespace-separated token. -/
def extract_acronym (s : String) : String :=
  String.mk ((splitWsL s.data).filterMap List.head?)

/-- Longest common subsequence length, the similarity kernel of the
ratio model.  Fuelled; fuel `a.length + b.length` always suffices. -/
def lcsF : Nat → List Char → List Char → Nat
  | 0, _, _ => 0
  | _ + 1, [], _ => 0
  | _ + 1, _ :: _, [] => 0
  | n + 1, a :: as, b :: bs =>
    if a = b then lcsF n as bs + 1
    else max (lcsF n as (b :: bs)) (lcsF n (a :: as) bs)

def lcsLen (a b : List Char) : Nat := lcsF (a.length + b.length) a b

/-- Lexicographic (code-point) order on character lists, Python's `<`
on `str`. -/
def lexLe : List Char → List Char → Bool
  | [], _ => true
  | _ :: _, [] => false
  | a :: as, b :: bs => if a = b then lexLe as bs else decide (a < b)

def insertLe (x : List Char) : List (List Char) → List (List Char)
  | [] => [x]
  | y :: r => if lexLe x y then x :: y :: r else y :: insertLe x r

/-- Models `sorted` on the token list. -/
def sortTokens : List (List Char) → List (List Char)
  | [] => []
  | x :: r => insertLe x (sortTokens r)

/-- Models the `' '.join(tokens)` step. -/
def joinSp (ts : List (List Char)) : List Char := List.intercalate [' '] ts

/-- Modelled from the spec: the token-order-independent similarity
ratio is computed by the external `fuzzywuzzy` library
(`fuzz.token_sort_ratio`), not by repository code.  The spec describes
it as a ratio metric in `[0, 100]`, invariant to word order, using the
best alignment of tokens; we model it as the classic
`round(100 * 2 * LCS / (len a + len b))` similarity of the
space-joined sorted token lists (the `Levenshtein.ratio` formula),
which is `100` exactly on equal inputs, symmetric, and bounded by
`100`. -/
def ratioL (a b : List Char) : Nat :=
  if a.length + b.length = 0 then 100
  else (400 * lcsLen a b + (a.length + b.length)) / (2 * (a.length + b.length))

def token_sort_ratio (a b : String) : Int :=
  (ratioL (joinSp (sortTokens (splitWsL a.data))) (joinSp (sortTokens (splitWsL b.data))) : Int)

/-- Tests string-prefix on character lists. -/
def isPrefL : List Char → List Char → Bool
  | [], _ => true
  | _ :: _, [] => false
  | a :: as, b :: bs => a == b && isPrefL as bs

/-- Python's `a in b` substring test. -/
def isInfixL : List Char → List Char → Bool
  | a, [] => isPrefL a []
  | a, b :: bs => isPrefL a (b :: bs) || isInfixL a bs

/-- Models `str.strip().lower()` as used on the city fields of `match_score`. -/
def pyStripLower (s : String) : String :=
  String.mk ((stripL s.data).map pyLower)

/-- Embeds `match_score` (updatev7.py, lines 146-176): token-sort ratio plus
substring bonus (+20), acronym bonus (+20 equal / +15 one-sided
containment), and city bonus (+10) or penalty (-10). -/
def match_score (client_norm siren_norm client_city siren_city : String) : Int :=
  let cc := pyStripLower client_city
  let sc := pyStripLower siren_city
  let ratio_token := token_sort_ratio client_norm siren_norm
  let substring_bonus : Int :=
    if isInfixL client_norm.data siren_norm.data || isInfixL siren_norm.data client_norm.data
    then 20 else 0
  let client_acro := extract_acronym client_norm
  let siren_acro := extract_acronym siren_norm
  let acronym_bonus : Int :=
    if client_acro ≠ "" ∧ siren_acro ≠ "" then
      if client_acro = siren_acro then 20
      else if isInfixL client_acro.data (siren_norm.data.filter (fun c => c != ' ')) then 15
      else 0
    else 0
  let city_bonus : Int := if cc ≠ "" ∧ sc ≠ "" ∧ cc = sc then 10 else -10
  ratio_token + substring_bonus + acronym_bonus + city_bonus

/-! Section: Registry records, resolver, blocking, matcher -/

/-- One SIRENE establishment row, restricted to the columns the
matching core reads.  `dtype=str` loading makes every column textual;
a missing workforce bracket is the empty string;
`etablissementSiege` is the headquarters flag. -/
structure SireneRecord where
  siren : String
  siret : String
  etatAdministratifEtablissement : String
  trancheEffectifsEtablissement : String
  etablissementSiege : Bool
  codePostalEtablissement : String
  nom_normalise : String
  libelleCommuneEtablissement : String
deriving DecidableEq

/-- Embeds `find_headquarters` (updatev7.py, lines 181-199): first row of the
headquarters subset whose `siren` equals the requested code. -/
def find_headquarters (sirene_head_subset : List SireneRecord) (siren_code : String) :
    Option SireneRecord :=
  sirene_head_subset.find? (fun r => r.siren == siren_code)

/-- Embeds `fill_effectif` (updatev7.py, lines 114-143).  The Python function
recurses with no bound; the fuel argument makes the model total:
`none` means the recursion did not finish within the given depth, so
`(∀ n, fill_effectif n r hs = none)` is exactly non-termination of the
source recursion. -/
def fill_effectif : Nat → SireneRecord → List SireneRecord → Option String
  | 0, _, _ => none
  | n + 1, r, sirene_head_subset =>
    if r.etatAdministratifEtablissement = "A" then
      some (if r.trancheEffectifsEtablissement ≠ "" then r.trancheEffectifsEtablissement
            else "A PRECISER")
    else if r.etatAdministratifEtablissement = "F" then
      if r.etablissementSiege then some "RADIEE"
      else
        match find_headquarters sirene_head_subset r.siren with
        | some siege => fill_effectif n siege sirene_head_subset
        | none => some "A PRECISER"
    else some "A PRECISER"

/-- First two characters of a string (`s[:2]` / pandas `.str[:2]`,
which keeps short strings whole). -/
def strTake2 (s : String) : String := String.mk (s.data.take 2)

/-- Embeds `create_sirene_by_dept` (updatev7.py, lines 203-224) as a lookup:
rows with `etatAdministratifEtablissement == 'A'` grouped by the first
two postal-code characters, in input order; a key maps to a group
exactly when the group is non-empty (pandas `groupby` creates no empty
group, and the orchestrator reads the dict with `.get`). -/
def create_sirene_by_dept (sirene_df : List SireneRecord) (dept : String) :
    Option (List SireneRecord) :=
  let group := (sirene_df.filter
      (fun r => r.etatAdministratifEtablissement == "A")).filter
      (fun r => strTake2 r.codePostalEtablissement == dept)
  if group.isEmpty then none else some group

/-- The score the matcher computes for one bucket row: the row's
precomputed `nom_normalise`, its city normalized on the fly. -/
def candidateScore (qn qc : String) (r : SireneRecord) : Int :=
  match_score qn r.nom_normalise qc (normalize_name r.libelleCommuneEtablissement)

/-- One step of the best-candidate loop: strictly-greater comparison
against the best score so far. -/
def bestStep (f : SireneRecord → Int) (b : Option SireneRecord × Int) (r : SireneRecord) :
    Option SireneRecord × Int :=
  if f r > b.2 then (some r, f r) else b

/-- Embeds `match_single_company` (updatev7.py, lines 251-285).  The result
mirrors Python exactly: the outer `Option` is the `return None` path
(best score below threshold), while the inner `Option` is the
`best_match` variable, which is still `None` when no candidate scored
above the `-1.0` initialization. -/
def match_single_company (client_name client_city : String)
    (sirene_subset : List SireneRecord) (threshold : Int) :
    Option (Option SireneRecord × Int) :=
  let qn := normalize_name client_name
  let qc := normalize_name client_city
  let best := sirene_subset.foldl (bestStep (candidateScore qn qc)) (none, -1)
  if best.2 ≥ threshold then some best else none

/-! Section: CRM records and the orchestrator -/

/-- A CRM field value: text, or the numeric `score_match`. -/
inductive Val where
  | str (s : String)
  | num (n : Int)
deriving DecidableEq

/-- A CRM row is a Python dict: insertion-ordered association list with
unique keys in practice; lookups take the first binding. -/
abbrev CrmRecord := List (String × Val)

def dget (d : CrmRecord) (k : String) : Option Val :=
  (d.find? (fun p => p.1 == k)).map (·.2)

/-- Models `d[k] = v`: replace the binding if present, else append. -/
def dset (d : CrmRecord) (k : String) (v : Val) : CrmRecord :=
  if (d.find? (fun p => p.1 == k)).isSome then
    d.map (fun p => if p.1 == k then (p.1, v) else p)
  else d ++ [(k, v)]

/-- Models `d.setdefault(k, v)`. -/
def dsetdefault (d : CrmRecord) (k : String) (v : Val) : CrmRecord :=
  if (dget d k).isSome then d else d ++ [(k, v)]

/-- Models `d.get(k, '')` coerced to text (the CRM is loaded with
`dtype=str`, so the fields the loop reads are strings). -/
def getS (d : CrmRecord) (k : String) : String :=
  match dget d k with
  | some (Val.str s) => s
  | _ => ""

def pyStripStr (s : String) : String := String.mk (stripL s.data)

def pyUpperStr (s : String) : String := String.mk (s.data.map pyUpper)

/-- The five enrichment fields with their defaults, in the
`setdefault` order of `update_CRM` (lines 302-306). -/
def enrichDefaults : List (String × Val) :=
  [("SIRET", Val.str ""), ("SIREN", Val.str ""), ("effectif", Val.str ""),
   ("nom_match_sirene", Val.str ""), ("score_match", Val.num 0)]

def enrichKeys : List String := enrichDefaults.map (·.1)

/-- Models `rec.copy()` followed by the five `setdefault` calls. -/
def initDefaults (rec : CrmRecord) : CrmRecord :=
  enrichDefaults.foldl (fun d p => dsetdefault d p.1 p.2) rec

/-- Embeds `remplir_ligne_orion` (updatev7.py, lines 229-248).  Inside
`update_CRM` the headquarters subset contains only rows with
`etablissementSiege = true`, so the `fill_effectif` recursion stops at
depth ≤ 2; fuel 2 is therefore exact (a lemma below proves the
default of `getD` is never taken there). -/
def remplir_ligne_orion (client : CrmRecord) (sirene_row : SireneRecord)
    (sirene_head_subset : List SireneRecord) (matched_name : String)
    (score : Int) : CrmRecord :=
  let d := dset client "SIRET" (Val.str sirene_row.siret)
  let d := dset d "SIREN" (Val.str sirene_row.siren)
  let d := dset d "nom_match_sirene" (Val.str matched_name)
  let d := dset d "score_match" (Val.num score)
  dset d "effectif"
    (Val.str ((fill_effectif 2 sirene_row sirene_head_subset).getD "A PRECISER"))

/-- The per-record body of the `update_CRM` matching loop
(lines 316-371): country filter, postal-prefix bucket lookup, matcher
at the default threshold 100, then `remplir_ligne_orion` on a match.
A `some (none, _)` matcher result cannot occur at threshold 100 and is
treated as no match. -/
def updateClient (sirene_df sirene_head_subset : List SireneRecord)
    (client : CrmRecord) : CrmRecord :=
  if pyUpperStr (pyStripStr (getS client "Pays")) ≠ "FRANCE" then client
  else
    match create_sirene_by_dept sirene_df (strTake2 (getS client "CP")) with
    | none => client
    | some subset =>
      match match_single_company (getS client "Société") (getS client "Ville") subset 100 with
      | some (some row, s) =>
        remplir_ligne_orion client row sirene_head_subset row.nom_normalise s
      | _ => client

/-- Embeds `update_CRM` (updatev7.py, lines 288-383) without its checkpoint
I/O: build the headquarters subset, copy every record and install the
enrichment defaults, then run the matching loop per record. -/
def update_CRM (sirene_df : List SireneRecord) (crm_db : List CrmRecord) :
    List CrmRecord :=
  let sirene_head_subset := sirene_df.filter (·.etablissementSiege)
  (crm_db.map initDefaults).map (updateClient sirene_df sirene_head_subset)

/-! Section: Specification-side helper definitions -/

/-- Maximum of `s` and the scores of a record list (the running
`best_score` of the matcher loop starts from `s`). -/
def maxWith (f : SireneRecord → Int) (s : Int) (l : List SireneRecord) : Int :=
  l.foldl (fun a r => max a (f r)) s

/-- The true maximum score over a non-empty bucket `x :: xs`. -/
def bucketMax (f : SireneRecord → Int) (x : SireneRecord) (xs : List SireneRecord) : Int :=
  maxWith f (f x) xs

/-- The score `match_single_company` computes for a bucket row, from
the raw (un-normalized) query fields. -/
def clientScore (client_name client_city : String) (r : SireneRecord) : Int :=
  candidateScore (normalize_name client_name) (normalize_name client_city) r

/-- Characters that can appear in a `normalize_name` output: lowercase
ASCII letters, digits, underscore, hyphen, space. -/
def goodChar (c : Char) : Bool :=
  (97 ≤ c.toNat && c.toNat ≤ 122) || (48 ≤ c.toNat && c.toNat ≤ 57) ||
  c.toNat = 95 || c.toNat = 45 || c.toNat = 32

/-- No two adjacent whitespace characters. -/
def noDoubleSpc : List Char → Bool
  | [] => true
  | [_] => true
  | a :: b :: r => !(isSpc a && isSpc b) && noDoubleSpc (b :: r)

/-- Every whitespace character is a plain space. -/
def spacesAreSpace (l : List Char) : Bool := l.all (fun c => !isSpc c || c == ' ')

/-! Section: Concrete sample data for witnesses and counterexamples -/

/-- A CLOSED non-headquarters establishment of entity 111. -/
def cycleA : SireneRecord :=
  ⟨"111", "11100001", "F", "", false, "75001", "a", "Paris"⟩

/-- A CLOSED record of the same entity 111, present in the headquarters
subset but (malformed data) not flagged as headquarters, so that the
headquarters lookup for 111 returns it and it then looks itself up. -/
def cycleB : SireneRecord :=
  ⟨"111", "11100002", "F", "", false, "75001", "b", "Paris"⟩

/-- An ACTIVE record whose postal code has a single character. -/
def rShort7 : SireneRecord :=
  ⟨"201", "20100001", "A", "12", false, "7", "acme", "Lyon"⟩

/-- An ACTIVE record whose postal code is empty. -/
def rEmptyCp : SireneRecord :=
  ⟨"202", "20200001", "A", "12", false, "", "acme", "Lyon"⟩

/-- An ACTIVE headquarters with workforce bracket 21, entity 101. -/
def hqActive : SireneRecord :=
  ⟨"101", "10100000", "A", "21", true, "75001", "acme", "Paris"⟩

/-- A CLOSED non-headquarters establishment of entity 101. -/
def closedBranch : SireneRecord :=
  ⟨"101", "10100001", "F", "", false, "75001", "acme", "Paris"⟩

/-- A candidate whose score against query name `"ab"`, empty city, is
`-10`: ratio 0, no substring, no acronym bonus, city penalty. -/
def cexLow : SireneRecord :=
  ⟨"301", "30100001", "A", "12", false, "75001", "xy", "Nowhere"⟩

/-- Two duplicate candidates with the same normalized name and city
(only `siret` differs), to exercise the first-of-equals tie-break. -/
def wDup1 : SireneRecord :=
  ⟨"401", "40100001", "A", "12", false, "69001", "acme corp", "Lyon"⟩

def wDup2 : SireneRecord :=
  ⟨"402", "40200001", "A", "32", false, "69001", "acme corp", "Lyon"⟩

/-! ## Theorems -/

/-- Unfolding of the resolver on a CLOSED non-headquarters record whose
headquarters lookup succeeds: one recursion step. -/
theorem fill_effectif_succ_closed (n : Nat) (r : SireneRecord)
    (s : List SireneRecord) (h : SireneRecord)
    (h1 : r.etatAdministratifEtablissement = "F")
    (h2 : r.etablissementSiege = false)
    (h3 : find_headquarters s r.siren = some h) :
    fill_effectif (n + 1) r s = fill_effectif n h s := by
  rw [fill_effectif, h1, if_neg (by decide), if_pos rfl, h2, if_neg (by decide), h3]

/-- C1.  The derived-attribute resolver has no depth bound and no
self-reference detection: on the synthetic reference cycle (entity 111,
records `cycleA`/`cycleB`, both CLOSED, neither flagged headquarters,
the lookup for 111 returning `cycleB` from either record) the source
recursion never returns — for every fuel bound the fuelled model is
still unfinished, instead of producing the `'A PRECISER'` sentinel the
claim requires. -/
theorem fill_effectif_diverges_on_cycle :
    ∀ n : Nat, fill_effectif n cycleA [cycleB] = none := by
  have hB : ∀ n : Nat, fill_effectif n cycleB [cycleB] = none := by
    intro n
    induction n with
    | zero => rfl
    | succ n ih =>
      rw [fill_effectif_succ_closed n cycleB [cycleB] cycleB rfl rfl rfl]
      exact ih
  intro n
  cases n with
  | zero => rfl
  | succ n =>
    rw [fill_effectif_succ_closed n cycleA [cycleB] cycleB rfl rfl rfl]
    exact hB n

/-- Bucket membership characterization: a record is retrievable from
bucket key `d` exactly when it is in the registry, ACTIVE, and `d` is
the two-character prefix of its postal code. -/
theorem bucket_mem_iff (sirene : List SireneRecord) (d : String) (r : SireneRecord) :
    (∃ g, create_sirene_by_dept sirene d = some g ∧ r ∈ g) ↔
    (r ∈ sirene ∧ r.etatAdministratifEtablissement = "A" ∧
      strTake2 r.codePostalEtablissement = d) := by
  simp only [create_sirene_by_dept]
  constructor
  · rintro ⟨g, hg, hr⟩
    split at hg
    · exact absurd hg (by simp)
    · cases hg
      have := hr
      simp only [List.mem_filter, beq_iff_eq] at this
      exact ⟨this.1.1, this.1.2, this.2⟩
  · rintro ⟨h1, h2, h3⟩
    have hrg : r ∈ (sirene.filter
        (fun r => r.etatAdministratifEtablissement == "A")).filter
        (fun r => strTake2 r.codePostalEtablissement == d) := by
      simp [List.mem_filter, h1, h2, h3]
    split
    · next he => rw [List.isEmpty_iff] at he; rw [he] at hrg; cases hrg
    · exact ⟨_, rfl, hrg⟩

/-- C9.  A record is in some bucket of the blocking index iff it comes
from the registry, is ACTIVE, and the bucket key is the two-character
prefix of its postal code; hence every bucketed record is ACTIVE (never
CLOSED) and belongs to exactly the one bucket keyed by its prefix. -/
theorem create_sirene_by_dept_members (sirene : List SireneRecord) (d : String)
    (r : SireneRecord) :
    (∃ g, create_sirene_by_dept sirene d = some g ∧ r ∈ g) ↔
    (r ∈ sirene ∧ r.etatAdministratifEtablissement = "A" ∧
      strTake2 r.codePostalEtablissement = d) :=
  bucket_mem_iff sirene d r

/-- C2, counterexample.  A registry record whose postal code has fewer
than two characters is NOT dropped: with postal code `"7"` it is
retrievable from bucket key `"7"`, and with postal code `""` from
bucket key `""`. -/
theorem short_postal_not_dropped :
    rShort7.codePostalEtablissement.data.length < 2 ∧
    create_sirene_by_dept [rShort7] "7" = some [rShort7] ∧
    rEmptyCp.codePostalEtablissement.data.length < 2 ∧
    create_sirene_by_dept [rEmptyCp] "" = some [rEmptyCp] := by
  refine ⟨by decide, by decide, by decide, by decide⟩

/-- C2, amended.  Building the blocking index drops no record for a
short postal code: every ACTIVE registry record (including those with
postal codes `""` or `"7"`) is retrievable from exactly the bucket
keyed by the (at most) two-character prefix of its postal code, so a
record with postal code `"75001"` is retrievable exactly from bucket
`"75"`, while records with postal codes `""` or `"7"` are retrievable
exactly from buckets `""` or `"7"`. -/
theorem active_record_exactly_one_bucket (sirene : List SireneRecord)
    (r : SireneRecord) (hmem : r ∈ sirene)
    (hA : r.etatAdministratifEtablissement = "A") :
    (∃ g, create_sirene_by_dept sirene (strTake2 r.codePostalEtablissement) = some g ∧
      r ∈ g) ∧
    ∀ d g, create_sirene_by_dept sirene d = some g → r ∈ g →
      d = strTake2 r.codePostalEtablissement := by
  constructor
  · exact (bucket_mem_iff sirene (strTake2 r.codePostalEtablissement) r).2 ⟨hmem, hA, rfl⟩
  · intro d g hg hr
    exact ((bucket_mem_iff sirene d r).1 ⟨g, hg, hr⟩).2.2.symm

/-- Witness for C2's amended theorem at the one-character postal code
`"7"`. -/
theorem active_record_exactly_one_bucket_witness :
    (∃ g, create_sirene_by_dept [rShort7, rEmptyCp]
        (strTake2 rShort7.codePostalEtablissement) = some g ∧ rShort7 ∈ g) ∧
    ∀ d g, create_sirene_by_dept [rShort7, rEmptyCp] d = some g → rShort7 ∈ g →
      d = strTake2 rShort7.codePostalEtablissement :=
  active_record_exactly_one_bucket [rShort7, rEmptyCp] rShort7 (by decide) (by decide)

/-- C3.  Whenever the resolver terminates (some fuel yields a value),
the value follows the claimed case analysis: ACTIVE with a non-empty
bracket returns the bracket; ACTIVE with an empty bracket returns
`'A PRECISER'`; CLOSED headquarters returns `'RADIEE'`; CLOSED
non-headquarters recurses on the record found by `find_headquarters`
on the parent identifier, and returns `'A PRECISER'` when none is
found. -/
theorem fill_effectif_case_analysis (r : SireneRecord)
    (subset : List SireneRecord) (v : String)
    (hterm : ∃ n, fill_effectif n r subset = some v) :
    (r.etatAdministratifEtablissement = "A" →
      r.trancheEffectifsEtablissement ≠ "" → v = r.trancheEffectifsEtablissement) ∧
    (r.etatAdministratifEtablissement = "A" →
      r.trancheEffectifsEtablissement = "" → v = "A PRECISER") ∧
    (r.etatAdministratifEtablissement = "F" → r.etablissementSiege = true →
      v = "RADIEE") ∧
    (r.etatAdministratifEtablissement = "F" → r.etablissementSiege = false →
      ∀ h, find_headquarters subset r.siren = some h →
        ∃ m, fill_effectif m h subset = some v) ∧
    (r.etatAdministratifEtablissement = "F" → r.etablissementSiege = false →
      find_headquarters subset r.siren = none → v = "A PRECISER") := by
  obtain ⟨n, hn⟩ := hterm
  cases n with
  | zero => exact absurd hn (by simp [fill_effectif])
  | succ n =>
    rw [fill_effectif] at hn
    refine ⟨?_, ?_, ?_, ?_, ?_⟩
    · intro h1 h2
      rw [h1, if_pos rfl, if_pos h2] at hn
      exact (Option.some.inj hn).symm
    · intro h1 h2
      rw [h1, if_pos rfl, h2, if_neg (by simp)] at hn
      exact (Option.some.inj hn).symm
    · intro h1 h2
      rw [h1, if_neg (by decide), if_pos rfl, h2, if_pos rfl] at hn
      exact (Option.some.inj hn).symm
    · intro h1 h2 h hfind
      rw [h1, if_neg (by decide), if_pos rfl, h2, if_neg (by decide), hfind] at hn
      exact ⟨n, hn⟩
    · intro h1 h2 hfind
      rw [h1, if_neg (by decide), if_pos rfl, h2, if_neg (by decide), hfind] at hn
      exact (Option.some.inj hn).symm

/-- Witness for C3: `closedBranch` is CLOSED and not the headquarters,
its entity's headquarters lookup finds `hqActive`, and termination at
fuel 2 with value `"21"` forces the recursive call on `hqActive` to
produce `"21"` as well. -/
theorem fill_effectif_case_analysis_witness :
    ∃ m, fill_effectif m hqActive [hqActive] = some "21" :=
  (fill_effectif_case_analysis closedBranch [hqActive] "21"
      ⟨2, by decide⟩).2.2.2.1 (by decide) (by decide) hqActive (by decide)

/-- Fuel irrelevance for the LCS kernel once it covers the input
lengths. -/
theorem lcsF_fuel (n : Nat) : ∀ (m : Nat) (a b : List Char),
    a.length + b.length ≤ n → a.length + b.length ≤ m →
    lcsF n a b = lcsF m a b := by
  induction n with
  | zero =>
    intro m a b h1 _
    match a, b with
    | [], [] => cases m <;> rfl
    | [], _ :: _ => simp at h1
    | _ :: _, _ => simp at h1
  | succ n ih =>
    intro m a b h1 h2
    match m with
    | 0 =>
      match a, b with
      | [], [] => rfl
      | [], _ :: _ => simp at h2
      | _ :: _, _ => simp at h2
    | m + 1 =>
      match a, b with
      | [], _ => rfl
      | _ :: _, [] => rfl
      | x :: xs, y :: ys =>
        simp only [lcsF]
        have hlen : xs.length + ys.length ≤ n := by
          simp only [List.length_cons] at h1; omega
        have hlen2 : xs.length + ys.length ≤ m := by
          simp only [List.length_cons] at h2; omega
        have hl1 : xs.length + (y :: ys).length ≤ n := by
          simp only [List.length_cons] at h1 ⊢; omega
        have hl1' : xs.length + (y :: ys).length ≤ m := by
          simp only [List.length_cons] at h2 ⊢; omega
        have hl2 : (x :: xs).length + ys.length ≤ n := by
          simp only [List.length_cons] at h1 ⊢; omega
        have hl2' : (x :: xs).length + ys.length ≤ m := by
          simp only [List.length_cons] at h2 ⊢; omega
        rw [ih m xs ys hlen hlen2, ih m xs (y :: ys) hl1 hl1',
          ih m (x :: xs) ys hl2 hl2']

/-- The LCS kernel is symmetric. -/
theorem lcsF_comm (n : Nat) : ∀ a b : List Char,
    a.length + b.length ≤ n → lcsF n a b = lcsF n b a := by
  induction n with
  | zero => intro a b _; rfl
  | succ n ih =>
    intro a b h
    match a, b with
    | [], [] => rfl
    | [], _ :: _ => rfl
    | _ :: _, [] => rfl
    | x :: xs, y :: ys =>
      simp only [lcsF]
      simp only [List.length_cons] at h
      by_cases hxy : x = y
      · subst hxy
        rw [if_pos rfl, if_pos rfl, ih xs ys (by omega)]
      · rw [if_neg hxy, if_neg (fun hyx => hxy hyx.symm),
          ih xs (y :: ys) (by simp only [List.length_cons]; omega),
          ih (x :: xs) ys (by simp only [List.length_cons]; omega),
          Nat.max_comm]

/-- The function `lcsLen` is symmetric. -/
theorem lcsLen_comm (a b : List Char) : lcsLen a b = lcsLen b a := by
  unfold lcsLen
  rw [lcsF_comm (a.length + b.length) a b le_rfl]
  exact lcsF_fuel (a.length + b.length) (b.length + a.length) b a
    (by omega) (by omega)

/-- The modelled ratio is symmetric. -/
theorem ratioL_comm (a b : List Char) : ratioL a b = ratioL b a := by
  unfold ratioL
  rw [lcsLen_comm, Nat.add_comm a.length b.length]

/-- The token-sort ratio is symmetric in its two arguments. -/
theorem token_sort_ratio_comm (a b : String) :
    token_sort_ratio a b = token_sort_ratio b a := by
  unfold token_sort_ratio
  rw [ratioL_comm]

/-- C6, counterexample.  The scorer is NOT symmetric in its name
arguments: the `+15` acronym sub-case tests only the first argument's
acronym for containment in the second name.  With `a = "xy zw"`
(acronym `"xz"`, contained in `"axzb"`) and `b = "axzb"` (acronym
`"a"`, not contained in `"xyzw"`), the two orders differ by 15. -/
theorem match_score_not_symmetric :
    match_score "xy zw" "axzb" "" "" = 49 ∧
    match_score "axzb" "xy zw" "" "" = 34 ∧
    match_score "xy zw" "axzb" "" "" ≠ match_score "axzb" "xy zw" "" "" :=
  ⟨by decide, by decide, by decide⟩

/-- C6, amended.  The scorer is symmetric in its name arguments
whenever the two names have the same acronym (in particular for
queries whose acronyms agree, and trivially when either acronym is
empty the asymmetric `+15` test cannot fire differently); the ratio,
substring and city components are order-symmetric unconditionally, the
acronym component only under this proviso. -/
theorem match_score_symm_of_acronym_eq (a b x y : String)
    (h : extract_acronym a = extract_acronym b) :
    match_score a b x y = match_score b a x y := by
  simp only [match_score]
  rw [token_sort_ratio_comm a b, h]
  have hsub : (isInfixL a.data b.data || isInfixL b.data a.data)
      = (isInfixL b.data a.data || isInfixL a.data b.data) := Bool.or_comm _ _
  rw [hsub]
  by_cases hne : extract_acronym b ≠ "" ∧ extract_acronym b ≠ ""
  · rw [if_pos hne, if_pos hne, if_pos rfl, if_pos rfl]
  · rw [if_neg hne, if_neg hne]

/-- Witness for C6's amended theorem: `"ab"` and `"ax"` share the
acronym `"a"`, and the score is then order-independent. -/
theorem match_score_symm_of_acronym_eq_witness :
    match_score "ab" "ax" "p" "p" = match_score "ax" "ab" "p" "p" :=
  match_score_symm_of_acronym_eq "ab" "ax" "p" "p" (by decide)

/-- The running maximum never decreases below its seed. -/
theorem maxWith_ge (f : SireneRecord → Int) (s : Int) (l : List SireneRecord) :
    s ≤ maxWith f s l := by
  induction l generalizing s with
  | nil => exact le_rfl
  | cons r t ih =>
    calc s ≤ max s (f r) := le_max_left _ _
    _ ≤ maxWith f (max s (f r)) t := ih _

theorem maxWith_max (f : SireneRecord → Int) (a b : Int) (l : List SireneRecord) :
    maxWith f (max a b) l = max a (maxWith f b l) := by
  induction l generalizing b with
  | nil => rfl
  | cons r t ih =>
    show maxWith f (max (max a b) (f r)) t = max a (maxWith f (max b (f r)) t)
    rw [max_assoc, ih]

/-- The second component of the matcher loop is the running maximum. -/
theorem foldl_bestStep_snd (f : SireneRecord → Int) (l : List SireneRecord) :
    ∀ (s : Int) (ob : Option SireneRecord),
    (l.foldl (bestStep f) (ob, s)).2 = maxWith f s l := by
  induction l with
  | nil => intro s ob; rfl
  | cons r t ih =>
    intro s ob
    show ((t.foldl (bestStep f) (bestStep f (ob, s) r))).2 = maxWith f (max s (f r)) t
    unfold bestStep
    by_cases hgt : f r > s
    · rw [if_pos hgt]
      have : max s (f r) = f r := by omega
      rw [this]
      exact ih _ _
    · rw [if_neg hgt]
      have : max s (f r) = s := by omega
      rw [this]
      exact ih _ _

/-- Full characterization of the matcher loop: if no candidate beats
the seed the accumulator is untouched; otherwise the loop ends at the
first candidate (in iteration order) attaining the running maximum,
which later equal scores never replace (strict comparison). -/
theorem foldl_bestStep_char (f : SireneRecord → Int) (l : List SireneRecord) :
    ∀ (s : Int) (ob : Option SireneRecord),
    (maxWith f s l = s → l.foldl (bestStep f) (ob, s) = (ob, s)) ∧
    (s < maxWith f s l →
      ∃ c, l.find? (fun r => f r == maxWith f s l) = some c ∧
        l.foldl (bestStep f) (ob, s) = (some c, maxWith f s l)) := by
  induction l with
  | nil =>
    intro s ob
    exact ⟨fun _ => rfl, fun hlt => absurd hlt (by simp [maxWith])⟩
  | cons r t ih =>
    intro s ob
    have hstep : (r :: t).foldl (bestStep f) (ob, s)
        = t.foldl (bestStep f) (bestStep f (ob, s) r) := rfl
    have hmax : maxWith f s (r :: t) = maxWith f (max s (f r)) t := rfl
    constructor
    · intro heq
      rw [hmax] at heq
      have hsr : max s (f r) = s := by
        have h1 := maxWith_ge f (max s (f r)) t
        have h2 : s ≤ max s (f r) := le_max_left _ _
        omega
      have hfr : ¬ f r > s := by
        have : f r ≤ max s (f r) := le_max_right _ _
        omega
      rw [hstep]
      unfold bestStep
      rw [if_neg hfr]
      rw [hsr] at heq
      exact (ih s ob).1 heq
    · intro hlt
      rw [hmax] at hlt ⊢
      rw [hstep]
      unfold bestStep
      by_cases hfr : f r > s
      · rw [if_pos hfr]
        have hseed : max s (f r) = f r := by omega
        rw [hseed] at hlt ⊢
        rcases eq_or_lt_of_le (maxWith_ge f (f r) t) with heq | hlt2
        · -- the head attains the maximum and is kept to the end
          refine ⟨r, ?_, ?_⟩
          · rw [← heq]
            simp [List.find?]
          · rw [← heq]
            exact (ih (f r) (some r)).1 heq.symm
        · -- the maximum is attained strictly later
          obtain ⟨c, hfind, hfold⟩ := (ih (f r) (some r)).2 hlt2
          refine ⟨c, ?_, hfold⟩
          rw [List.find?]
          have hne : (f r == maxWith f (f r) t) = false := by
            simp only [beq_eq_false_iff_ne, ne_eq]
            omega
          rw [hne]
          exact hfind
      · rw [if_neg hfr]
        have hseed : max s (f r) = s := by omega
        rw [hseed] at hlt ⊢
        obtain ⟨c, hfind, hfold⟩ := (ih s ob).2 hlt
        refine ⟨c, ?_, hfold⟩
        rw [List.find?]
        have hne : (f r == maxWith f s t) = false := by
          simp only [beq_eq_false_iff_ne, ne_eq]
          have := maxWith_ge f s t
          omega
        rw [hne]
        exact hfind

/-- C5, counterexample.  The loop's `best_score` starts at the `-1.0`
sentinel, so with a threshold below `-1` a bucket whose only candidate
scores `-10` (which is the bucket's maximum score, and is above the
threshold) still yields `some (none, -1)` — the sentinel, not the
first maximal candidate with its score, contradicting the claim for
that threshold. -/
theorem match_single_company_sentinel_masks_candidate :
    clientScore "ab" "" cexLow = -10 ∧
    ((-20 : Int) ≤ bucketMax (clientScore "ab" "") cexLow []) ∧
    match_single_company "ab" "" [cexLow] (-20) = some (none, -1) :=
  ⟨by decide, by decide, by decide⟩

/-- C5, amended.  For every query and non-empty bucket, provided the
threshold exceeds the `-1.0` initialization sentinel (true in
particular at the default `100.0`): if the bucket's maximum score
reaches the threshold, the matcher returns the first candidate in
iteration order attaining that maximum together with the maximum
(strictly-greater comparison, so later equal scores never replace it);
otherwise it returns no match. -/
theorem match_single_company_first_max (client_name client_city : String)
    (x : SireneRecord) (xs : List SireneRecord) (t : Int) (ht : -1 < t) :
    (t ≤ bucketMax (clientScore client_name client_city) x xs →
      ∃ c, (x :: xs).find? (fun r =>
          clientScore client_name client_city r ==
            bucketMax (clientScore client_name client_city) x xs) = some c ∧
        match_single_company client_name client_city (x :: xs) t =
          some (some c, bucketMax (clientScore client_name client_city) x xs)) ∧
    (bucketMax (clientScore client_name client_city) x xs < t →
      match_single_company client_name client_city (x :: xs) t = none) := by
  have hms : match_single_company client_name client_city (x :: xs) t =
      (if ((x :: xs).foldl (bestStep (clientScore client_name client_city))
          (none, -1)).2 ≥ t then
        some ((x :: xs).foldl (bestStep (clientScore client_name client_city)) (none, -1))
      else none) := rfl
  have hsnd := foldl_bestStep_snd (clientScore client_name client_city) (x :: xs)
    (-1) none
  have hm : maxWith (clientScore client_name client_city) (-1) (x :: xs) =
      max (-1) (bucketMax (clientScore client_name client_city) x xs) := by
    show maxWith _ (max (-1) (clientScore client_name client_city x)) xs = _
    rw [maxWith_max]
    rfl
  constructor
  · intro hle
    have hMt : -1 < bucketMax (clientScore client_name client_city) x xs :=
      lt_of_lt_of_le ht hle
    have hmm : maxWith (clientScore client_name client_city) (-1) (x :: xs) =
        bucketMax (clientScore client_name client_city) x xs := by
      rw [hm]; omega
    obtain ⟨c, hfind, hfold⟩ :=
      (foldl_bestStep_char (clientScore client_name client_city) (x :: xs)
        (-1) none).2 (by rw [hmm]; exact hMt)
    rw [hmm] at hfind hfold
    refine ⟨c, hfind, ?_⟩
    rw [hms, hfold]
    exact if_pos hle
  · intro hlt
    have hnd : ((x :: xs).foldl (bestStep (clientScore client_name client_city))
        (none, -1)).2 < t := by
      rw [hsnd, hm]; omega
    rw [hms, if_neg (not_le.mpr hnd)]

/-- Witness for C5's amended theorem: the duplicate bucket
`[wDup1, wDup2]` (equal scores 150) at the default threshold 100: the
matcher returns the first of the two equal-scoring candidates. -/
theorem match_single_company_first_max_witness :
    ∃ c, ([wDup1, wDup2].find? (fun r =>
        clientScore "Acme Corp" "Lyon" r ==
          bucketMax (clientScore "Acme Corp" "Lyon") wDup1 [wDup2]) = some c) ∧
      match_single_company "Acme Corp" "Lyon" [wDup1, wDup2] 100 =
        some (some c, bucketMax (clientScore "Acme Corp" "Lyon") wDup1 [wDup2]) :=
  (match_single_company_first_max "Acme Corp" "Lyon" wDup1 [wDup2] 100
    (by decide)).1 (by decide)

/-! Section: Character-level facts used by the normalization proofs -/

theorem char_eq_of_toNat {c : Char} {n : Nat} (h : c.toNat = n) : c = Char.ofNat n := by
  rw [← h, Char.ofNat_toNat]

theorem isSpc_iff {c : Char} : isSpc c = true ↔
    (c.toNat = 32 ∨ c.toNat = 9 ∨ c.toNat = 10 ∨ c.toNat = 13 ∨
      c.toNat = 11 ∨ c.toNat = 12) := by
  simp [isSpc, or_assoc]

theorem isWord_iff {c : Char} : isWord c = true ↔
    ((97 ≤ c.toNat ∧ c.toNat ≤ 122) ∨ (65 ≤ c.toNat ∧ c.toNat ≤ 90) ∨
      (48 ≤ c.toNat ∧ c.toNat ≤ 57) ∨ c.toNat = 95) := by
  simp [isWord, or_assoc]

theorem goodChar_iff {c : Char} : goodChar c = true ↔
    ((97 ≤ c.toNat ∧ c.toNat ≤ 122) ∨ (48 ≤ c.toNat ∧ c.toNat ≤ 57) ∨
      c.toNat = 95 ∨ c.toNat = 45 ∨ c.toNat = 32) := by
  simp [goodChar, or_assoc]

theorem isSpc_not_isWord {c : Char} (h : isSpc c = true) : isWord c = false := by
  rw [isSpc_iff] at h
  rw [← Bool.not_eq_true, isWord_iff]
  omega

theorem isWord_not_isSpc {c : Char} (h : isWord c = true) : isSpc c = false := by
  rw [isWord_iff] at h
  rw [← Bool.not_eq_true, isSpc_iff]
  omega

/-- A `normalize_name`-output character passes the accent folding
unchanged. -/
theorem asciiFold_good {c : Char} (h : goodChar c = true) : asciiFold c = [c] := by
  rw [goodChar_iff] at h
  unfold asciiFold
  rw [if_pos (by omega)]
  unfold pyLower
  rw [if_neg (by simp only [Bool.and_eq_true, decide_eq_true_eq]; omega)]

/-- A `normalize_name`-output character passes punctuation removal
unchanged. -/
theorem punctToSpace_good {c : Char} (h : goodChar c = true) : punctToSpace c = c := by
  have hcond : (isWord c || isSpc c || c = '-') = true := by
    rw [goodChar_iff] at h
    rcases h with h | h | h | h | h
    · simp only [Bool.or_eq_true, isWord_iff]
      exact Or.inl (Or.inl (Or.inl h))
    · simp only [Bool.or_eq_true, isWord_iff]
      exact Or.inl (Or.inl (Or.inr (Or.inr (Or.inl h))))
    · simp only [Bool.or_eq_true, isWord_iff]
      exact Or.inl (Or.inl (Or.inr (Or.inr (Or.inr h))))
    · rw [char_eq_of_toNat h]; decide
    · rw [char_eq_of_toNat h]; decide
  unfold punctToSpace
  rw [if_pos hcond]

/-- A `normalize_name`-output character is not uppercase, so `lower`
fixes it. -/
theorem pyLower_good {c : Char} (h : goodChar c = true) : pyLower c = c := by
  rw [goodChar_iff] at h
  unfold pyLower
  rw [if_neg (by simp only [Bool.and_eq_true, decide_eq_true_eq]; omega)]

/-- Every character produced by the accent folding is ASCII and not an
uppercase letter. -/
theorem asciiFold_out {c d : Char} (h : d ∈ asciiFold c) :
    d.toNat < 128 ∧ ¬(65 ≤ d.toNat ∧ d.toNat ≤ 90) := by
  unfold asciiFold at h
  by_cases hc : c.toNat < 128
  · rw [if_pos (by simpa using hc)] at h
    simp only [List.mem_singleton] at h
    subst h
    unfold pyLower
    by_cases hu : 65 ≤ c.toNat ∧ c.toNat ≤ 90
    · rw [if_pos (by simp only [Bool.and_eq_true, decide_eq_true_eq]; exact hu)]
      obtain ⟨h1, h2⟩ := hu
      have hrange : ∀ n : Nat, 65 ≤ n → n ≤ 90 → c.toNat = n →
          (Char.ofNat (n + 32)).toNat < 128 ∧
          ¬(65 ≤ (Char.ofNat (n + 32)).toNat ∧ (Char.ofNat (n + 32)).toNat ≤ 90) := by
        intro n hn1 hn2 _
        interval_cases n <;> simp
      have hc' := hrange c.toNat h1 h2 rfl
      exact hc'
    · rw [if_neg (by simp only [Bool.and_eq_true, decide_eq_true_eq]; exact hu)]
      exact ⟨hc, hu⟩
  · rw [if_neg (by simpa using hc)] at h
    rcases hfind : accentTable.find? (fun p => p.1 == c) with _ | p
    · rw [hfind] at h; cases h
    · rw [hfind] at h
      have hmem := List.mem_of_find?_eq_some hfind
      have htab : ∀ p ∈ accentTable, ∀ d ∈ p.2,
          d.toNat < 128 ∧ ¬(65 ≤ d.toNat ∧ d.toNat ≤ 90) := by decide
      exact htab p hmem d h

/-! Section: Maximal-run machinery -/

theorem head_dropWhile_false {α : Type} (p : α → Bool) (l : List α) {d : α}
    (h : (l.dropWhile p).head? = some d) : p d = false := by
  have := List.head?_dropWhile_not p l
  rw [h] at this
  exact this

theorem head?_mem {α : Type} {l : List α} {d : α} (h : l.head? = some d) : d ∈ l := by
  match l with
  | [] => cases h
  | c :: r =>
    simp only [List.head?_cons, Option.some.injEq] at h
    subst h
    exact List.mem_cons_self c r

theorem map_id_on {α : Type} {f : α → α} : ∀ {l : List α},
    (∀ c ∈ l, f c = c) → l.map f = l
  | [], _ => rfl
  | c :: r, h => by
    rw [List.map_cons, h c (List.mem_cons_self c r),
      map_id_on (fun d hd => h d (List.mem_cons_of_mem c hd))]

theorem runsF_fuel (p : Char → Bool) (n : Nat) : ∀ (m : Nat) (l : List Char),
    l.length ≤ n → l.length ≤ m → runsF p n l = runsF p m l := by
  induction n with
  | zero =>
    intro m l h1 _
    match l with
    | [] => cases m <;> rfl
    | _ :: _ => simp at h1
  | succ n ih =>
    intro m l h1 h2
    match m with
    | 0 =>
      match l with
      | [] => rfl
      | _ :: _ => simp at h2
    | m + 1 =>
      match l with
      | [] => rfl
      | c :: r =>
        simp only [runsF]
        by_cases hc : p c
        · rw [if_pos hc, if_pos hc]
          have hd : ((c :: r).dropWhile p).length ≤ r.length := by
            rw [List.dropWhile_cons_of_pos hc]
            exact (List.dropWhile_sublist p).length_le
          simp only [List.length_cons] at h1 h2
          rw [ih m _ (by omega) (by omega)]
        · rw [if_neg hc, if_neg hc]
          simp only [List.length_cons] at h1 h2
          rw [ih m r (by omega) (by omega)]

theorem runsBy_cons_pos {p : Char → Bool} {c : Char} (r : List Char)
    (h : p c = true) :
    runsBy p (c :: r) =
      (c :: r).takeWhile p :: runsBy p ((c :: r).dropWhile p) := by
  show runsF p (r.length + 1) (c :: r) = _
  simp only [runsF, if_pos h]
  rw [runsF_fuel p r.length ((c :: r).dropWhile p).length _
    (by rw [List.dropWhile_cons_of_pos h]; exact (List.dropWhile_sublist p).length_le)
    le_rfl]
  rfl

theorem runsBy_cons_neg {p : Char → Bool} {c : Char} (r : List Char)
    (h : p c = false) : runsBy p (c :: r) = runsBy p r := by
  show runsF p (r.length + 1) (c :: r) = _
  rw [show runsF p (r.length + 1) (c :: r) =
    (if p c then (c :: r).takeWhile p :: runsF p r.length ((c :: r).dropWhile p)
     else runsF p r.length r) from rfl]
  rw [if_neg (by simp [h])]
  rfl

theorem runsBy_nil_of_none {p : Char → Bool} : ∀ {l : List Char},
    (∀ c ∈ l, p c = false) → runsBy p l = []
  | [], _ => rfl
  | c :: r, h => by
    rw [runsBy_cons_neg r (h c (List.mem_cons_self c r))]
    exact runsBy_nil_of_none (fun d hd => h d (List.mem_cons_of_mem c hd))

theorem takeWhile_all_append {p : Char → Bool} {z : List Char}
    (hz : ∀ d, z.head? = some d → p d = false) : ∀ (run : List Char),
    (∀ c ∈ run, p c = true) →
    (run ++ z).takeWhile p = run ∧ (run ++ z).dropWhile p = z
  | [], _ => by
    simp only [List.nil_append]
    match z with
    | [] => exact ⟨rfl, rfl⟩
    | d :: z' =>
      have hd : p d = false := hz d rfl
      exact ⟨List.takeWhile_cons_of_neg (by simp [hd]),
             List.dropWhile_cons_of_neg (by simp [hd])⟩
  | c :: run', hall => by
    have hc : p c = true := hall c (List.mem_cons_self c run')
    have ih := takeWhile_all_append hz run'
      (fun d hd => hall d (List.mem_cons_of_mem c hd))
    simp only [List.cons_append, List.takeWhile_cons_of_pos hc,
      List.dropWhile_cons_of_pos hc]
    exact ⟨by rw [ih.1], ih.2⟩

/-- A non-empty all-`p` run followed by a non-`p` boundary is one run. -/
theorem runsBy_run_head {p : Char → Bool} {run z : List Char}
    (hne : run ≠ []) (hall : ∀ c ∈ run, p c = true)
    (hz : ∀ d, z.head? = some d → p d = false) :
    runsBy p (run ++ z) = run :: runsBy p z := by
  match run, hne with
  | c :: run', _ =>
    have hc : p c = true := hall c (by simp)
    have htd := takeWhile_all_append hz (c :: run') hall
    rw [List.cons_append, runsBy_cons_pos _ hc, ← List.cons_append, htd.1, htd.2]

theorem runsBy_append_right_none {p : Char → Bool} {s : List Char}
    (hs : ∀ c ∈ s, p c = false) : ∀ (n : Nat) (z : List Char), z.length ≤ n →
    runsBy p (z ++ s) = runsBy p z := by
  intro n
  induction n with
  | zero =>
    intro z hz
    match z with
    | [] => exact runsBy_nil_of_none hs
    | _ :: _ => simp at hz
  | succ n ih =>
    intro z hz
    match z with
    | [] => exact runsBy_nil_of_none hs
    | c :: r =>
      by_cases hc : p c
      · have hdec := List.takeWhile_append_dropWhile (p := p) (l := c :: r)
        have hrun : (c :: r).takeWhile p ≠ [] := by
          rw [List.takeWhile_cons_of_pos hc]; simp
        have hall : ∀ d ∈ (c :: r).takeWhile p, p d = true :=
          fun d hd => List.mem_takeWhile_imp hd
        have hrest : ∀ d, ((c :: r).dropWhile p).head? = some d → p d = false :=
          fun d hd => head_dropWhile_false p (c :: r) hd
        have hrs : ∀ d, (((c :: r).dropWhile p) ++ s).head? = some d → p d = false := by
          intro d hd
          match hr : (c :: r).dropWhile p with
          | [] =>
            rw [hr] at hd
            simp only [List.nil_append] at hd
            exact hs d (head?_mem hd)
          | e :: r' =>
            rw [hr] at hd
            simp only [List.cons_append, List.head?_cons, Option.some.injEq] at hd
            rw [← hd]
            exact hrest e (by rw [hr]; rfl)
        have hlen : ((c :: r).dropWhile p).length ≤ n := by
          rw [List.dropWhile_cons_of_pos hc]
          have := (List.dropWhile_sublist (l := r) p).length_le
          simp only [List.length_cons] at hz
          omega
        calc runsBy p ((c :: r) ++ s)
            = runsBy p (((c :: r).takeWhile p ++ (c :: r).dropWhile p) ++ s) := by
              rw [hdec]
          _ = runsBy p ((c :: r).takeWhile p ++ ((c :: r).dropWhile p ++ s)) := by
              rw [List.append_assoc]
          _ = (c :: r).takeWhile p :: runsBy p ((c :: r).dropWhile p ++ s) :=
              runsBy_run_head hrun hall hrs
          _ = (c :: r).takeWhile p :: runsBy p ((c :: r).dropWhile p) := by
              rw [ih _ hlen]
          _ = runsBy p ((c :: r).takeWhile p ++ (c :: r).dropWhile p) :=
              (runsBy_run_head hrun hall hrest).symm
          _ = runsBy p (c :: r) := by rw [hdec]
      · have hc' : p c = false := by simpa using hc
        rw [List.cons_append, runsBy_cons_neg _ hc', runsBy_cons_neg _ hc']
        simp only [List.length_cons] at hz
        exact ih r (by omega)

/-! Section: Collapse and strip -/

theorem collapseF_fuel (n : Nat) : ∀ (m : Nat) (l : List Char),
    l.length ≤ n → l.length ≤ m → collapseF n l = collapseF m l := by
  induction n with
  | zero =>
    intro m l h1 _
    match l with
    | [] => cases m <;> rfl
    | _ :: _ => simp at h1
  | succ n ih =>
    intro m l h1 h2
    match m with
    | 0 =>
      match l with
      | [] => rfl
      | _ :: _ => simp at h2
    | m + 1 =>
      match l with
      | [] => rfl
      | c :: r =>
        simp only [collapseF]
        simp only [List.length_cons] at h1 h2
        by_cases hc : isSpc c
        · rw [if_pos hc, if_pos hc]
          have := (List.dropWhile_sublist (l := r) isSpc).length_le
          rw [ih m _ (by omega) (by omega)]
        · rw [if_neg hc, if_neg hc, ih m r (by omega) (by omega)]

theorem collapse_cons_spc {c : Char} (r : List Char) (h : isSpc c = true) :
    collapse (c :: r) = ' ' :: collapse (r.dropWhile isSpc) := by
  show collapseF (r.length + 1) (c :: r) = _
  simp only [collapseF, if_pos h]
  rw [collapseF_fuel r.length (r.dropWhile isSpc).length _
    ((List.dropWhile_sublist isSpc).length_le) le_rfl]
  rfl

theorem collapse_cons_not {c : Char} (r : List Char) (h : isSpc c = false) :
    collapse (c :: r) = c :: collapse r := by
  show collapseF (r.length + 1) (c :: r) = _
  simp only [collapseF]
  rw [if_neg (by simp [h])]
  rfl

theorem collapse_append_nonspc : ∀ {xs : List Char} (z : List Char),
    (∀ c ∈ xs, isSpc c = false) → collapse (xs ++ z) = xs ++ collapse z
  | [], z, _ => rfl
  | c :: xs, z, h => by
    rw [List.cons_append, collapse_cons_not _ (h c (List.mem_cons_self c xs)),
      collapse_append_nonspc z (fun d hd => h d (List.mem_cons_of_mem c hd))]
    rfl

theorem collapse_head_not_spc {l : List Char}
    (h : ∀ d, l.head? = some d → isSpc d = false) :
    ∀ e, (collapse l).head? = some e → isSpc e = false := by
  intro e he
  match l with
  | [] => cases he
  | d :: r =>
    have hd : isSpc d = false := h d rfl
    rw [collapse_cons_not r hd] at he
    simp only [List.head?_cons, Option.some.injEq] at he
    rw [← he]
    exact hd

theorem collapse_head_not_word {l : List Char}
    (h : ∀ d, l.head? = some d → isWord d = false) :
    ∀ e, (collapse l).head? = some e → isWord e = false := by
  intro e he
  match l with
  | [] => cases he
  | d :: r =>
    by_cases hd : isSpc d
    · rw [collapse_cons_spc r hd] at he
      simp only [List.head?_cons, Option.some.injEq] at he
      rw [← he]
      decide
    · rw [collapse_cons_not r (by simpa using hd)] at he
      simp only [List.head?_cons, Option.some.injEq] at he
      rw [← he]
      exact h d rfl

theorem runsBy_dropWhile_spc : ∀ (l : List Char),
    runsBy isWord (l.dropWhile isSpc) = runsBy isWord l
  | [] => rfl
  | c :: r => by
    by_cases hc : isSpc c
    · rw [List.dropWhile_cons_of_pos hc, runsBy_dropWhile_spc r,
        runsBy_cons_neg r (isSpc_not_isWord hc)]
    · rw [List.dropWhile_cons_of_neg hc]

/-- Whitespace collapsing does not change the `\w`-runs. -/
theorem runsBy_collapse : ∀ (n : Nat) (l : List Char), l.length ≤ n →
    runsBy isWord (collapse l) = runsBy isWord l := by
  intro n
  induction n with
  | zero =>
    intro l hl
    match l with
    | [] => rfl
    | _ :: _ => simp at hl
  | succ n ih =>
    intro l hl
    match l with
    | [] => rfl
    | c :: r =>
      simp only [List.length_cons] at hl
      by_cases hc : isSpc c
      · rw [collapse_cons_spc r hc, runsBy_cons_neg _ (by decide),
          ih _ (by have := (List.dropWhile_sublist (l := r) isSpc).length_le; omega),
          runsBy_dropWhile_spc r, runsBy_cons_neg r (isSpc_not_isWord hc)]
      · have hc' : isSpc c = false := by simpa using hc
        by_cases hw : isWord c
        · -- split off the maximal word run
          have hdec := List.takeWhile_append_dropWhile (p := isWord) (l := c :: r)
          have hall : ∀ d ∈ (c :: r).takeWhile isWord, isWord d = true :=
            fun d hd => List.mem_takeWhile_imp hd
          have hnospc : ∀ d ∈ (c :: r).takeWhile isWord, isSpc d = false :=
            fun d hd => isWord_not_isSpc (hall d hd)
          have hrun : (c :: r).takeWhile isWord ≠ [] := by
            rw [List.takeWhile_cons_of_pos hw]; simp
          have hrest : ∀ d, ((c :: r).dropWhile isWord).head? = some d →
              isWord d = false := fun d hd => head_dropWhile_false isWord _ hd
          have hlen : ((c :: r).dropWhile isWord).length ≤ n := by
            rw [List.dropWhile_cons_of_pos hw]
            have := (List.dropWhile_sublist (l := r) isWord).length_le
            omega
          calc runsBy isWord (collapse (c :: r))
              = runsBy isWord (collapse ((c :: r).takeWhile isWord ++
                  (c :: r).dropWhile isWord)) := by rw [hdec]
            _ = runsBy isWord ((c :: r).takeWhile isWord ++
                  collapse ((c :: r).dropWhile isWord)) := by
                rw [collapse_append_nonspc _ hnospc]
            _ = (c :: r).takeWhile isWord ::
                  runsBy isWord (collapse ((c :: r).dropWhile isWord)) :=
                runsBy_run_head hrun hall (collapse_head_not_word hrest)
            _ = (c :: r).takeWhile isWord ::
                  runsBy isWord ((c :: r).dropWhile isWord) := by rw [ih _ hlen]
            _ = runsBy isWord ((c :: r).takeWhile isWord ++
                  (c :: r).dropWhile isWord) :=
                (runsBy_run_head hrun hall hrest).symm
            _ = runsBy isWord (c :: r) := by rw [hdec]
        · have hw' : isWord c = false := by simpa using hw
          rw [collapse_cons_not r hc', runsBy_cons_neg _ hw',
            runsBy_cons_neg r hw', ih r (by omega)]

/-- Characters of the collapse output: kept non-space input characters
and inserted plain spaces. -/
theorem collapse_chars : ∀ (n : Nat) (l : List Char), l.length ≤ n →
    ∀ c ∈ collapse l, (c ∈ l ∧ isSpc c = false) ∨ c = ' ' := by
  intro n
  induction n with
  | zero =>
    intro l hl c hc
    match l with
    | [] => cases hc
    | _ :: _ => simp at hl
  | succ n ih =>
    intro l hl c hc
    match l with
    | [] => cases hc
    | d :: r =>
      simp only [List.length_cons] at hl
      by_cases hd : isSpc d
      · rw [collapse_cons_spc r hd] at hc
        rcases List.mem_cons.1 hc with h | h
        · exact Or.inr h
        · have hlen : (r.dropWhile isSpc).length ≤ n := by
            have := (List.dropWhile_sublist (l := r) isSpc).length_le; omega
          rcases ih _ hlen c h with ⟨hm, hs⟩ | hsp
          · exact Or.inl ⟨List.mem_cons_of_mem d ((List.dropWhile_sublist isSpc).subset hm), hs⟩
          · exact Or.inr hsp
      · have hd' : isSpc d = false := by simpa using hd
        rw [collapse_cons_not r hd'] at hc
        rcases List.mem_cons.1 hc with h | h
        · exact Or.inl ⟨by rw [h]; exact List.mem_cons_self d r, by rw [h]; exact hd'⟩
        · rcases ih r (by omega) c h with ⟨hm, hs⟩ | hsp
          · exact Or.inl ⟨List.mem_cons_of_mem d hm, hs⟩
          · exact Or.inr hsp

theorem noDoubleSpc_cons {c : Char} {z : List Char}
    (h1 : ∀ e, z.head? = some e → (isSpc c && isSpc e) = false)
    (h2 : noDoubleSpc z = true) : noDoubleSpc (c :: z) = true := by
  match z with
  | [] => rfl
  | e :: z' =>
    show (!(isSpc c && isSpc e) && noDoubleSpc (e :: z')) = true
    rw [h1 e rfl, h2]
    rfl

theorem noDoubleSpc_tail {c : Char} {z : List Char}
    (h : noDoubleSpc (c :: z) = true) : noDoubleSpc z = true := by
  match z with
  | [] => rfl
  | e :: z' =>
    have h' : (!(isSpc c && isSpc e) && noDoubleSpc (e :: z')) = true := h
    simp only [Bool.and_eq_true] at h'
    exact h'.2

theorem noDoubleSpc_pair {c e : Char} {z : List Char}
    (h : noDoubleSpc (c :: e :: z) = true) : (isSpc c && isSpc e) = false := by
  have h' : (!(isSpc c && isSpc e) && noDoubleSpc (e :: z)) = true := h
  simp only [Bool.and_eq_true] at h'
  have h1 := h'.1
  cases hb : (isSpc c && isSpc e)
  · rfl
  · rw [hb] at h1; cases h1

/-- The collapse output has no adjacent whitespace pair. -/
theorem noDoubleSpc_collapse : ∀ (n : Nat) (l : List Char), l.length ≤ n →
    noDoubleSpc (collapse l) = true := by
  intro n
  induction n with
  | zero =>
    intro l hl
    match l with
    | [] => rfl
    | _ :: _ => simp at hl
  | succ n ih =>
    intro l hl
    match l with
    | [] => rfl
    | d :: r =>
      simp only [List.length_cons] at hl
      by_cases hd : isSpc d
      · rw [collapse_cons_spc r hd]
        have hlen : (r.dropWhile isSpc).length ≤ n := by
          have := (List.dropWhile_sublist (l := r) isSpc).length_le; omega
        refine noDoubleSpc_cons ?_ (ih _ hlen)
        intro e he
        have : isSpc e = false := collapse_head_not_spc
          (fun d' hd' => head_dropWhile_false isSpc r hd') e he
        simp [this]
      · have hd' : isSpc d = false := by simpa using hd
        rw [collapse_cons_not r hd']
        refine noDoubleSpc_cons ?_ (ih r (by omega))
        intro e _
        simp [hd']

/-- Every whitespace character of the collapse output is a plain
space. -/
theorem spacesAreSpace_collapse (n : Nat) (l : List Char) (hl : l.length ≤ n) :
    spacesAreSpace (collapse l) = true := by
  rw [spacesAreSpace, List.all_eq_true]
  intro c hc
  rcases collapse_chars n l hl c hc with ⟨_, hs⟩ | hsp
  · simp [hs]
  · simp [hsp, isSpc]

/-- A list whose whitespace is plain spaces with no adjacent pair is a
collapse fixpoint. -/
theorem collapse_eq_self : ∀ (l : List Char), spacesAreSpace l = true →
    noDoubleSpc l = true → collapse l = l
  | [], _, _ => rfl
  | c :: r, hsp, hnd => by
    have hsp' : spacesAreSpace r = true := by
      rw [spacesAreSpace, List.all_eq_true] at hsp ⊢
      exact fun d hd => hsp d (List.mem_cons_of_mem c hd)
    by_cases hc : isSpc c
    · have hcsp : c = ' ' := by
        rw [spacesAreSpace, List.all_eq_true] at hsp
        have := hsp c (List.mem_cons_self c r)
        simp only [Bool.or_eq_true, Bool.not_eq_true] at this
        rcases this with h | h
        · rw [hc] at h; cases h
        · exact eq_of_beq h
      rw [collapse_cons_spc r hc]
      have hdrop : r.dropWhile isSpc = r := by
        match r with
        | [] => rfl
        | e :: r' =>
          have hpair := noDoubleSpc_pair hnd
          rw [hc] at hpair
          simp only [Bool.true_and] at hpair
          exact List.dropWhile_cons_of_neg (by simp [hpair])
      rw [hdrop, collapse_eq_self r hsp' (noDoubleSpc_tail hnd), hcsp]
    · rw [collapse_cons_not r (by simpa using hc),
        collapse_eq_self r hsp' (noDoubleSpc_tail hnd)]

/-! Section: dropTrailSpc and stripL -/

theorem dropTrailSpc_nil_all {r : List Char} (h : dropTrailSpc r = []) :
    ∀ c ∈ r, isSpc c = true := by
  induction r with
  | nil => intro c hc; cases hc
  | cons d r' ih =>
    intro c hc
    rw [dropTrailSpc] at h
    split at h
    · next hcond =>
      simp only [Bool.and_eq_true, List.isEmpty_iff] at hcond
      rcases List.mem_cons.1 hc with h1 | h1
      · rw [h1]; exact hcond.2
      · exact ih hcond.1 c h1
    · cases h

theorem dropTrailSpc_decomp : ∀ (l : List Char),
    ∃ s, l = dropTrailSpc l ++ s ∧ ∀ c ∈ s, isSpc c = true
  | [] => ⟨[], rfl, by intro c hc; cases hc⟩
  | c :: r => by
    rw [dropTrailSpc]
    split
    · next hcond =>
      simp only [Bool.and_eq_true, List.isEmpty_iff] at hcond
      refine ⟨c :: r, rfl, ?_⟩
      intro d hd
      rcases List.mem_cons.1 hd with h1 | h1
      · rw [h1]; exact hcond.2
      · exact dropTrailSpc_nil_all hcond.1 d h1
    · obtain ⟨s, hs, hall⟩ := dropTrailSpc_decomp r
      exact ⟨s, by rw [List.cons_append, ← hs], hall⟩

theorem dropTrailSpc_head {l : List Char} {d : Char}
    (h : (dropTrailSpc l).head? = some d) : l.head? = some d := by
  match l with
  | [] => cases h
  | c :: r =>
    rw [dropTrailSpc] at h
    split at h
    · cases h
    · simp only [List.head?_cons, Option.some.injEq] at h ⊢
      exact h

theorem dropTrailSpc_idem (l : List Char) :
    dropTrailSpc (dropTrailSpc l) = dropTrailSpc l := by
  induction l with
  | nil => rfl
  | cons c r ih =>
    rw [dropTrailSpc]
    split
    · rfl
    · next hcond =>
      rw [dropTrailSpc, ih]
      rw [if_neg hcond]

theorem noDoubleSpc_dropTrailSpc {l : List Char} (h : noDoubleSpc l = true) :
    noDoubleSpc (dropTrailSpc l) = true := by
  induction l with
  | nil => rfl
  | cons c r ih =>
    rw [dropTrailSpc]
    split
    · rfl
    · refine noDoubleSpc_cons ?_ (ih (noDoubleSpc_tail h))
      intro e he
      have hr : r.head? = some e := dropTrailSpc_head he
      match r, hr with
      | e :: r', rfl =>
        exact noDoubleSpc_pair h

theorem noDoubleSpc_dropWhile_spc {l : List Char} (h : noDoubleSpc l = true) :
    noDoubleSpc (l.dropWhile isSpc) = true := by
  induction l with
  | nil => rfl
  | cons c r ih =>
    by_cases hc : isSpc c
    · rw [List.dropWhile_cons_of_pos hc]
      exact ih (noDoubleSpc_tail h)
    · rw [List.dropWhile_cons_of_neg hc]
      exact h

theorem spacesAreSpace_subset {l l' : List Char}
    (hsub : ∀ c ∈ l', c ∈ l) (h : spacesAreSpace l = true) :
    spacesAreSpace l' = true := by
  rw [spacesAreSpace, List.all_eq_true] at h ⊢
  exact fun c hc => h c (hsub c hc)

theorem dropTrailSpc_subset {l : List Char} : ∀ c ∈ dropTrailSpc l, c ∈ l := by
  obtain ⟨s, hs, _⟩ := dropTrailSpc_decomp l
  intro c hc
  rw [hs]
  exact List.mem_append_left s hc

theorem stripL_subset {l : List Char} : ∀ c ∈ stripL l, c ∈ l := by
  intro c hc
  exact (List.dropWhile_sublist isSpc).subset (dropTrailSpc_subset c hc)

theorem stripL_head_not_spc {l : List Char} {d : Char}
    (h : (stripL l).head? = some d) : isSpc d = false := by
  exact head_dropWhile_false isSpc l (dropTrailSpc_head h)

theorem stripL_idem (l : List Char) : stripL (stripL l) = stripL l := by
  unfold stripL
  have hdw : (dropTrailSpc (l.dropWhile isSpc)).dropWhile isSpc
      = dropTrailSpc (l.dropWhile isSpc) := by
    match hh : dropTrailSpc (l.dropWhile isSpc) with
    | [] => rfl
    | d :: z =>
      have hd : isSpc d = false := by
        refine head_dropWhile_false isSpc l (dropTrailSpc_head ?_)
        rw [hh]; rfl
      exact List.dropWhile_cons_of_neg (by simp [hd])
  rw [hdw, dropTrailSpc_idem]

theorem runsBy_dropTrailSpc (l : List Char) :
    runsBy isWord (dropTrailSpc l) = runsBy isWord l := by
  obtain ⟨s, hs, hall⟩ := dropTrailSpc_decomp l
  conv_rhs => rw [hs]
  rw [runsBy_append_right_none (fun c hc => isSpc_not_isWord (hall c hc))
    (dropTrailSpc l).length _ le_rfl]

theorem runsBy_stripL (l : List Char) :
    runsBy isWord (stripL l) = runsBy isWord l := by
  unfold stripL
  rw [runsBy_dropTrailSpc, runsBy_dropWhile_spc]

/-! Section: Token substitution -/

theorem subTokensF_fuel (A : List (List Char)) (n : Nat) :
    ∀ (m : Nat) (l : List Char), l.length ≤ n → l.length ≤ m →
    subTokensF A n l = subTokensF A m l := by
  induction n with
  | zero =>
    intro m l h1 _
    match l with
    | [] => cases m <;> rfl
    | _ :: _ => simp at h1
  | succ n ih =>
    intro m l h1 h2
    match m with
    | 0 =>
      match l with
      | [] => rfl
      | _ :: _ => simp at h2
    | m + 1 =>
      match l with
      | [] => rfl
      | c :: r =>
        simp only [subTokensF]
        simp only [List.length_cons] at h1 h2
        by_cases hc : isWord c
        · rw [if_pos hc, if_pos hc]
          have hd : ((c :: r).dropWhile isWord).length ≤ r.length := by
            rw [List.dropWhile_cons_of_pos hc]
            exact (List.dropWhile_sublist isWord).length_le
          rw [ih m _ (by omega) (by omega)]
        · rw [if_neg hc, if_neg hc, ih m r (by omega) (by omega)]

theorem subTokens_cons_word {A : List (List Char)} {c : Char} (r : List Char)
    (h : isWord c = true) :
    subTokens A (c :: r) =
      (if A.contains ((c :: r).takeWhile isWord) then [' ']
       else (c :: r).takeWhile isWord) ++ subTokens A ((c :: r).dropWhile isWord) := by
  show subTokensF A (r.length + 1) (c :: r) = _
  simp only [subTokensF, if_pos h]
  rw [subTokensF_fuel A r.length ((c :: r).dropWhile isWord).length _
    (by rw [List.dropWhile_cons_of_pos h]; exact (List.dropWhile_sublist isWord).length_le)
    le_rfl]
  rfl

theorem subTokens_cons_not {A : List (List Char)} {c : Char} (r : List Char)
    (h : isWord c = false) : subTokens A (c :: r) = c :: subTokens A r := by
  show subTokensF A (r.length + 1) (c :: r) = _
  rw [show subTokensF A (r.length + 1) (c :: r) =
    (if isWord c then
      (if A.contains ((c :: r).takeWhile isWord) then [' ']
       else (c :: r).takeWhile isWord) ++ subTokensF A r.length ((c :: r).dropWhile isWord)
     else c :: subTokensF A r.length r) from rfl]
  rw [if_neg (by simp [h])]
  rfl

theorem subTokens_head_not_word {A : List (List Char)} {l : List Char}
    (h : ∀ d, l.head? = some d → isWord d = false) :
    ∀ e, (subTokens A l).head? = some e → isWord e = false := by
  intro e he
  match l with
  | [] => cases he
  | d :: r =>
    have hd : isWord d = false := h d rfl
    rw [subTokens_cons_not r hd] at he
    simp only [List.head?_cons, Option.some.injEq] at he
    rw [← he]
    exact hd

/-- Token substitution keeps exactly the maximal `\w`-runs not in the
alternative list, replacing the others by spaces. -/
theorem runsBy_subTokens (A : List (List Char)) : ∀ (n : Nat) (l : List Char),
    l.length ≤ n →
    runsBy isWord (subTokens A l) =
      (runsBy isWord l).filter (fun run => !A.contains run) := by
  intro n
  induction n with
  | zero =>
    intro l hl
    match l with
    | [] => rfl
    | _ :: _ => simp at hl
  | succ n ih =>
    intro l hl
    match l with
    | [] => rfl
    | c :: r =>
      simp only [List.length_cons] at hl
      by_cases hw : isWord c
      · have hdec := List.takeWhile_append_dropWhile (p := isWord) (l := c :: r)
        have hall : ∀ d ∈ (c :: r).takeWhile isWord, isWord d = true :=
          fun d hd => List.mem_takeWhile_imp hd
        have hrun : (c :: r).takeWhile isWord ≠ [] := by
          rw [List.takeWhile_cons_of_pos hw]; simp
        have hrest : ∀ d, ((c :: r).dropWhile isWord).head? = some d →
            isWord d = false := fun d hd => head_dropWhile_false isWord _ hd
        have hlen : ((c :: r).dropWhile isWord).length ≤ n := by
          rw [List.dropWhile_cons_of_pos hw]
          have := (List.dropWhile_sublist (l := r) isWord).length_le
          omega
        have hruns : runsBy isWord (c :: r) =
            (c :: r).takeWhile isWord :: runsBy isWord ((c :: r).dropWhile isWord) := by
          conv_lhs => rw [← hdec]
          exact runsBy_run_head hrun hall hrest
        rw [subTokens_cons_word r hw, hruns]
        by_cases hA : A.contains ((c :: r).takeWhile isWord)
        · rw [if_pos hA]
          rw [show (([' '] : List Char) ++ subTokens A ((c :: r).dropWhile isWord)) =
            ' ' :: subTokens A ((c :: r).dropWhile isWord) from rfl]
          rw [runsBy_cons_neg _ (by decide), ih _ hlen]
          rw [List.filter_cons]
          have hc' : (!A.contains ((c :: r).takeWhile isWord)) = false := by
            rw [hA]; rfl
          rw [hc', if_neg (by exact Bool.false_ne_true)]
        · rw [if_neg hA]
          rw [runsBy_run_head hrun hall
            (subTokens_head_not_word hrest), ih _ hlen]
          rw [List.filter_cons]
          have hc' : (!A.contains ((c :: r).takeWhile isWord)) = true := by
            cases hb : A.contains ((c :: r).takeWhile isWord)
            · rfl
            · exact absurd hb hA
          rw [hc', if_pos rfl]
      · have hw' : isWord c = false := by simpa using hw
        rw [subTokens_cons_not r hw', runsBy_cons_neg _ hw',
          runsBy_cons_neg r hw', ih r (by omega)]

/-- A list none of whose maximal `\w`-runs is an alternative is a
`subTokens` fixpoint. -/
theorem subTokens_id_of (A : List (List Char)) : ∀ (n : Nat) (l : List Char),
    l.length ≤ n →
    (∀ run ∈ runsBy isWord l, A.contains run = false) →
    subTokens A l = l := by
  intro n
  induction n with
  | zero =>
    intro l hl _
    match l with
    | [] => rfl
    | _ :: _ => simp at hl
  | succ n ih =>
    intro l hl hruns
    match l with
    | [] => rfl
    | c :: r =>
      simp only [List.length_cons] at hl
      by_cases hw : isWord c
      · have hdec := List.takeWhile_append_dropWhile (p := isWord) (l := c :: r)
        have hall : ∀ d ∈ (c :: r).takeWhile isWord, isWord d = true :=
          fun d hd => List.mem_takeWhile_imp hd
        have hrun : (c :: r).takeWhile isWord ≠ [] := by
          rw [List.takeWhile_cons_of_pos hw]; simp
        have hrest : ∀ d, ((c :: r).dropWhile isWord).head? = some d →
            isWord d = false := fun d hd => head_dropWhile_false isWord _ hd
        have hlen : ((c :: r).dropWhile isWord).length ≤ n := by
          rw [List.dropWhile_cons_of_pos hw]
          have := (List.dropWhile_sublist (l := r) isWord).length_le
          omega
        have hruns' : runsBy isWord (c :: r) =
            (c :: r).takeWhile isWord :: runsBy isWord ((c :: r).dropWhile isWord) := by
          conv_lhs => rw [← hdec]
          exact runsBy_run_head hrun hall hrest
        have hA : A.contains ((c :: r).takeWhile isWord) = false := by
          refine hruns _ ?_
          rw [hruns']
          exact List.mem_cons_self _ _
        rw [subTokens_cons_word r hw,
          if_neg (by rw [hA]; exact Bool.false_ne_true)]
        rw [ih _ hlen (fun run hr => hruns run (by rw [hruns']; exact List.mem_cons_of_mem _ hr))]
        exact hdec
      · have hw' : isWord c = false := by simpa using hw
        rw [subTokens_cons_not r hw',
          ih r (by omega) (fun run hr => hruns run (by rw [runsBy_cons_neg r hw']; exact hr))]

theorem subTokens_subset (A : List (List Char)) : ∀ (n : Nat) (l : List Char),
    l.length ≤ n → ∀ c ∈ subTokens A l, c ∈ l ∨ c = ' ' := by
  intro n
  induction n with
  | zero =>
    intro l hl c hc
    match l with
    | [] => cases hc
    | _ :: _ => simp at hl
  | succ n ih =>
    intro l hl c hc
    match l with
    | [] => cases hc
    | d :: r =>
      simp only [List.length_cons] at hl
      by_cases hw : isWord d
      · rw [subTokens_cons_word r hw] at hc
        have hlen : ((d :: r).dropWhile isWord).length ≤ n := by
          rw [List.dropWhile_cons_of_pos hw]
          have := (List.dropWhile_sublist (l := r) isWord).length_le
          omega
        rcases List.mem_append.1 hc with h1 | h1
        · by_cases hA : A.contains ((d :: r).takeWhile isWord)
          · rw [if_pos hA] at h1
            simp only [List.mem_singleton] at h1
            exact Or.inr h1
          · rw [if_neg hA] at h1
            exact Or.inl ((List.takeWhile_sublist isWord).subset h1)
        · rcases ih _ hlen c h1 with h2 | h2
          · exact Or.inl ((List.dropWhile_sublist isWord).subset h2)
          · exact Or.inr h2
      · have hw' : isWord d = false := by simpa using hw
        rw [subTokens_cons_not r hw'] at hc
        rcases List.mem_cons.1 hc with h1 | h1
        · exact Or.inl (by rw [h1]; exact List.mem_cons_self d r)
        · rcases ih r (by omega) c h1 with h2 | h2
          · exact Or.inl (List.mem_cons_of_mem d h2)
          · exact Or.inr h2

/-! Section: Punctuation map, parentheses, accent folding -/

theorem punctToSpace_word {c : Char} (h : isWord c = true) : punctToSpace c = c := by
  unfold punctToSpace
  rw [if_pos (by rw [h]; rfl)]

theorem punctToSpace_preserves_word (c : Char) :
    isWord (punctToSpace c) = isWord c := by
  unfold punctToSpace
  split
  · rfl
  · next hcond =>
    have hw : isWord c = false := by
      cases hb : isWord c
      · rfl
      · exact absurd (by rw [hb]; rfl : (isWord c || isSpc c || c = '-') = true) hcond
    rw [hw]
    decide

/-- A character-wise map that fixes `\w` characters and maps non-`\w`
to non-`\w` does not change the `\w`-runs. -/
theorem runsBy_map_word {f : Char → Char}
    (hf1 : ∀ c, isWord (f c) = isWord c)
    (hf2 : ∀ c, isWord c = true → f c = c) :
    ∀ (n : Nat) (l : List Char), l.length ≤ n →
    runsBy isWord (l.map f) = runsBy isWord l := by
  intro n
  induction n with
  | zero =>
    intro l hl
    match l with
    | [] => rfl
    | _ :: _ => simp at hl
  | succ n ih =>
    intro l hl
    match l with
    | [] => rfl
    | c :: r =>
      simp only [List.length_cons] at hl
      by_cases hw : isWord c
      · have hdec := List.takeWhile_append_dropWhile (p := isWord) (l := c :: r)
        have hall : ∀ d ∈ (c :: r).takeWhile isWord, isWord d = true :=
          fun d hd => List.mem_takeWhile_imp hd
        have hrun : (c :: r).takeWhile isWord ≠ [] := by
          rw [List.takeWhile_cons_of_pos hw]; simp
        have hrest : ∀ d, ((c :: r).dropWhile isWord).head? = some d →
            isWord d = false := fun d hd => head_dropWhile_false isWord _ hd
        have hlen : ((c :: r).dropWhile isWord).length ≤ n := by
          rw [List.dropWhile_cons_of_pos hw]
          have := (List.dropWhile_sublist (l := r) isWord).length_le
          omega
        have hmaprest : ∀ d, (((c :: r).dropWhile isWord).map f).head? = some d →
            isWord d = false := by
          intro d hd
          rw [List.head?_map] at hd
          match hh : ((c :: r).dropWhile isWord).head? with
          | none => rw [hh] at hd; cases hd
          | some e =>
            rw [hh] at hd
            simp only [Option.map_some', Option.some.injEq] at hd
            rw [← hd, hf1 e]
            exact hrest e hh
        calc runsBy isWord ((c :: r).map f)
            = runsBy isWord (((c :: r).takeWhile isWord ++
                (c :: r).dropWhile isWord).map f) := by rw [hdec]
          _ = runsBy isWord ((c :: r).takeWhile isWord ++
                ((c :: r).dropWhile isWord).map f) := by
              rw [List.map_append, map_id_on (fun d hd => hf2 d (hall d hd))]
          _ = (c :: r).takeWhile isWord ::
                runsBy isWord (((c :: r).dropWhile isWord).map f) :=
              runsBy_run_head hrun hall hmaprest
          _ = (c :: r).takeWhile isWord ::
                runsBy isWord ((c :: r).dropWhile isWord) := by rw [ih _ hlen]
          _ = runsBy isWord ((c :: r).takeWhile isWord ++
                (c :: r).dropWhile isWord) :=
              (runsBy_run_head hrun hall hrest).symm
          _ = runsBy isWord (c :: r) := by rw [hdec]
      · have hw' : isWord c = false := by simpa using hw
        rw [List.map_cons, runsBy_cons_neg _ (by rw [hf1 c]; exact hw'),
          runsBy_cons_neg r hw', ih r (by omega)]

theorem splitAtClose_subset : ∀ {l r' : List Char},
    splitAtClose l = some r' → ∀ c ∈ r', c ∈ l := by
  intro l
  induction l with
  | nil => intro r' h; cases h
  | cons d l' ih =>
    intro r' h c hc
    rw [splitAtClose] at h
    split at h
    · cases h
      exact List.mem_cons_of_mem d hc
    · exact List.mem_cons_of_mem d (ih h c hc)

theorem splitAtClose_length : ∀ {l r' : List Char},
    splitAtClose l = some r' → r'.length < l.length := by
  intro l
  induction l with
  | nil => intro r' h; cases h
  | cons d l' ih =>
    intro r' h
    rw [splitAtClose] at h
    split at h
    · cases h
      simp
    · have := ih h
      simp only [List.length_cons]
      omega

theorem removeParensF_fuel (n : Nat) : ∀ (m : Nat) (l : List Char),
    l.length ≤ n → l.length ≤ m → removeParensF n l = removeParensF m l := by
  induction n with
  | zero =>
    intro m l h1 _
    match l with
    | [] => cases m <;> rfl
    | _ :: _ => simp at h1
  | succ n ih =>
    intro m l h1 h2
    match m with
    | 0 =>
      match l with
      | [] => rfl
      | _ :: _ => simp at h2
    | m + 1 =>
      match l with
      | [] => rfl
      | c :: r =>
        simp only [List.length_cons] at h1 h2
        by_cases hc : c = '('
        · subst hc
          cases hs : splitAtClose r with
          | some r' =>
            have hlt := splitAtClose_length hs
            simp only [removeParensF, hs, eq_self_iff_true, if_true]
            rw [ih m r' (by omega) (by omega)]
          | none =>
            simp only [removeParensF, hs, eq_self_iff_true, if_true]
            rw [ih m r (by omega) (by omega)]
        · simp only [removeParensF]
          rw [if_neg hc, if_neg hc, ih m r (by omega) (by omega)]

theorem removeParens_cons_open_some {r r' : List Char}
    (h : splitAtClose r = some r') :
    removeParens ('(' :: r) = ' ' :: removeParens r' := by
  show removeParensF (r.length + 1) ('(' :: r) = _
  simp only [removeParensF, h, eq_self_iff_true, if_true]
  rw [removeParensF_fuel r.length r'.length r'
    (by have := splitAtClose_length h; omega) le_rfl]
  rfl

theorem removeParens_cons_open_none {r : List Char}
    (h : splitAtClose r = none) :
    removeParens ('(' :: r) = '(' :: removeParens r := by
  show removeParensF (r.length + 1) ('(' :: r) = _
  simp only [removeParensF, h, eq_self_iff_true, if_true]
  rfl

theorem removeParens_cons_other {c : Char} (r : List Char) (h : c ≠ '(') :
    removeParens (c :: r) = c :: removeParens r := by
  show removeParensF (r.length + 1) (c :: r) = _
  simp only [removeParensF]
  rw [if_neg h]
  rfl

theorem removeParens_id : ∀ (l : List Char),
    (∀ c ∈ l, c ≠ '(') → removeParens l = l
  | [], _ => rfl
  | c :: r, h => by
    rw [removeParens_cons_other r (h c (List.mem_cons_self c r)),
      removeParens_id r (fun d hd => h d (List.mem_cons_of_mem c hd))]

theorem removeParens_subset : ∀ (n : Nat) (l : List Char), l.length ≤ n →
    ∀ c ∈ removeParens l, c ∈ l ∨ c = ' ' := by
  intro n
  induction n with
  | zero =>
    intro l hl c hc
    match l with
    | [] => cases hc
    | _ :: _ => simp at hl
  | succ n ih =>
    intro l hl c hc
    match l with
    | [] => cases hc
    | d :: r =>
      simp only [List.length_cons] at hl
      by_cases hd : d = '('
      · subst hd
        match hs : splitAtClose r with
        | some r' =>
          rw [removeParens_cons_open_some hs] at hc
          rcases List.mem_cons.1 hc with h1 | h1
          · exact Or.inr h1
          · have := splitAtClose_length hs
            rcases ih r' (by omega) c h1 with h2 | h2
            · exact Or.inl (List.mem_cons_of_mem _ (splitAtClose_subset hs c h2))
            · exact Or.inr h2
        | none =>
          rw [removeParens_cons_open_none hs] at hc
          rcases List.mem_cons.1 hc with h1 | h1
          · exact Or.inl (by rw [h1]; exact List.mem_cons_self _ r)
          · rcases ih r (by omega) c h1 with h2 | h2
            · exact Or.inl (List.mem_cons_of_mem _ h2)
            · exact Or.inr h2
      · rw [removeParens_cons_other r hd] at hc
        rcases List.mem_cons.1 hc with h1 | h1
        · exact Or.inl (by rw [h1]; exact List.mem_cons_self d r)
        · rcases ih r (by omega) c h1 with h2 | h2
          · exact Or.inl (List.mem_cons_of_mem d h2)
          · exact Or.inr h2

theorem foldChars_out : ∀ {l : List Char}, ∀ d ∈ foldChars l,
    d.toNat < 128 ∧ ¬(65 ≤ d.toNat ∧ d.toNat ≤ 90) := by
  intro l
  induction l with
  | nil => intro d hd; cases hd
  | cons c r ih =>
    intro d hd
    rw [foldChars] at hd
    rcases List.mem_append.1 hd with h | h
    · exact asciiFold_out h
    · exact ih d h

theorem foldChars_id_of_good : ∀ (l : List Char),
    (∀ c ∈ l, goodChar c = true) → foldChars l = l
  | [], _ => rfl
  | c :: r, h => by
    rw [foldChars, asciiFold_good (h c (List.mem_cons_self c r)),
      foldChars_id_of_good r (fun d hd => h d (List.mem_cons_of_mem c hd))]
    rfl

/-! Section: The normalized image and idempotence -/

theorem goodChar_shape {c : Char} (h1 : c.toNat < 128)
    (h2 : ¬(65 ≤ c.toNat ∧ c.toNat ≤ 90))
    (h3 : isWord c = true ∨ c = '-' ∨ c = ' ') : goodChar c = true := by
  rcases h3 with h | h | h
  · rw [isWord_iff] at h
    rw [goodChar_iff]
    omega
  · rw [h]; decide
  · rw [h]; decide

/-- Every character of a `normalizeL` output is a lowercase letter,
digit, underscore, hyphen or space. -/
theorem normalizeL_good (l : List Char) : ∀ c ∈ normalizeL l, goodChar c = true := by
  intro c hc
  unfold normalizeL at hc
  have hstrip := stripL_subset c hc
  rcases collapse_chars _ _ le_rfl c hstrip with ⟨hcL, hnspc⟩ | hsp
  · rcases subTokens_subset legalAlts _ _ le_rfl c hcL with hcP | hsp'
    · rw [List.mem_map] at hcP
      obtain ⟨d, hdCx, hcd⟩ := hcP
      have hdNU : d.toNat < 128 ∧ ¬(65 ≤ d.toNat ∧ d.toNat ≤ 90) := by
        rcases subTokens_subset cedexAlts _ _ le_rfl d hdCx with hdR | hdsp
        · rcases removeParens_subset _ _ le_rfl d hdR with hdF | hdsp
          · exact foldChars_out d hdF
          · rw [hdsp]; exact (by decide)
        · rw [hdsp]; exact (by decide)
      unfold punctToSpace at hcd
      split at hcd
      · next hcond =>
        rw [← hcd]
        rcases (by simpa using hcond : (isWord d = true ∨ isSpc d = true) ∨ d = '-')
          with (hw | hs) | hh
        · exact goodChar_shape hdNU.1 hdNU.2 (Or.inl hw)
        · rw [← hcd] at hnspc
          rw [hs] at hnspc
          cases hnspc
        · exact goodChar_shape hdNU.1 hdNU.2 (Or.inr (Or.inl hh))
      · rw [← hcd]; decide
    · rw [hsp']; decide
  · rw [hsp]; decide

/-- No maximal `\w`-run of a `normalizeL` output is the `cedex` token
or a legal form. -/
theorem normalizeL_runs (l : List Char) :
    ∀ run ∈ runsBy isWord (normalizeL l),
      cedexAlts.contains run = false ∧ legalAlts.contains run = false := by
  intro run hrun
  unfold normalizeL at hrun
  rw [runsBy_stripL, runsBy_collapse _ _ le_rfl,
    runsBy_subTokens legalAlts _ _ le_rfl] at hrun
  rw [List.mem_filter] at hrun
  obtain ⟨hrunP, hnotlegal⟩ := hrun
  rw [runsBy_map_word punctToSpace_preserves_word
    (fun c hc => punctToSpace_word hc) _ _ le_rfl,
    runsBy_subTokens cedexAlts _ _ le_rfl] at hrunP
  rw [List.mem_filter] at hrunP
  have h1 : cedexAlts.contains run = false := by
    cases hb : cedexAlts.contains run
    · rfl
    · rw [hb] at hrunP; exact absurd hrunP.2 (by decide)
  have h2 : legalAlts.contains run = false := by
    cases hb : legalAlts.contains run
    · rfl
    · rw [hb] at hnotlegal; exact absurd hnotlegal (by decide)
  exact ⟨h1, h2⟩

theorem normalizeL_spaces (l : List Char) :
    spacesAreSpace (normalizeL l) = true := by
  unfold normalizeL
  exact spacesAreSpace_subset stripL_subset (spacesAreSpace_collapse _ _ le_rfl)

theorem normalizeL_noDouble (l : List Char) :
    noDoubleSpc (normalizeL l) = true := by
  unfold normalizeL stripL
  exact noDoubleSpc_dropTrailSpc
    (noDoubleSpc_dropWhile_spc (noDoubleSpc_collapse _ _ le_rfl))

theorem normalizeL_strip (l : List Char) :
    stripL (normalizeL l) = normalizeL l := by
  unfold normalizeL
  exact stripL_idem _

/-- A `normalizeL` output is a fixpoint of `normalizeL`. -/
theorem normalizeL_fix (x : List Char) : normalizeL (normalizeL x) = normalizeL x := by
  have hgood := normalizeL_good x
  have hruns := normalizeL_runs x
  have hnp : ∀ c ∈ normalizeL x, c ≠ '(' := by
    intro c hc h
    have := goodChar_iff.1 (hgood c hc)
    rw [h] at this
    revert this
    decide
  conv_lhs => rw [normalizeL]
  rw [foldChars_id_of_good _ hgood,
    removeParens_id _ hnp,
    subTokens_id_of cedexAlts _ _ le_rfl (fun run h => (hruns run h).1),
    map_id_on (fun c hc => punctToSpace_good (hgood c hc)),
    subTokens_id_of legalAlts _ _ le_rfl (fun run h => (hruns run h).2),
    collapse_eq_self _ (normalizeL_spaces x) (normalizeL_noDouble x),
    normalizeL_strip x]

/-- C7.  `normalize_name` is idempotent. -/
theorem normalize_name_idem (x : String) :
    normalize_name (normalize_name x) = normalize_name x := by
  by_cases h0 : (stripL x.data).isEmpty = true
  · have hx : normalize_name x = "" := by rw [normalize_name, if_pos h0]
    rw [hx]
    rfl
  · have hx : normalize_name x = String.mk (normalizeL x.data) := by
      rw [normalize_name, if_neg h0]
    rw [hx]
    have hdz : (String.mk (normalizeL x.data)).data = normalizeL x.data := rfl
    rw [normalize_name, hdz, normalizeL_strip x.data]
    by_cases hz0 : (normalizeL x.data).isEmpty = true
    · rw [if_pos hz0]
      rw [List.isEmpty_iff.1 hz0]
    · rw [if_neg hz0, normalizeL_fix x.data]

/-! Section: Exact-duplicate scoring (C4) -/

theorem normalize_name_good (s : String) :
    ∀ c ∈ (normalize_name s).data, goodChar c = true := by
  unfold normalize_name
  split
  · intro c hc; cases hc
  · exact normalizeL_good s.data

theorem normalize_name_stripped (s : String) :
    stripL (normalize_name s).data = (normalize_name s).data := by
  unfold normalize_name
  split
  · rfl
  · exact normalizeL_strip s.data

theorem data_ne_nil_of_ne_empty {s : String} (h : s ≠ "") : s.data ≠ [] := by
  intro hd
  apply h
  cases s with
  | mk l =>
    have hl : l = [] := hd
    rw [hl]

theorem lcsF_self : ∀ (n : Nat) (a : List Char), 2 * a.length ≤ n →
    lcsF n a a = a.length := by
  intro n
  induction n with
  | zero =>
    intro a ha
    match a with
    | [] => rfl
    | _ :: _ => simp at ha
  | succ n ih =>
    intro a ha
    match a with
    | [] => rfl
    | c :: as =>
      simp only [List.length_cons] at ha
      simp only [lcsF, eq_self_iff_true, if_true, List.length_cons]
      rw [ih as (by omega)]

theorem ratioL_self (a : List Char) : ratioL a a = 100 := by
  unfold ratioL
  by_cases h : a.length + a.length = 0
  · rw [if_pos h]
  · rw [if_neg h]
    have hL : 0 < a.length := by omega
    have hlcs : lcsLen a a = a.length := by
      unfold lcsLen
      exact lcsF_self (a.length + a.length) a (by omega)
    rw [hlcs]
    have hrw : 400 * a.length + (a.length + a.length)
        = (a.length + a.length) + (2 * (a.length + a.length)) * 100 := by ring
    rw [hrw, Nat.add_mul_div_left _ _ (by omega : 0 < 2 * (a.length + a.length)),
      Nat.div_eq_of_lt (by omega)]

theorem token_sort_ratio_self (s : String) : token_sort_ratio s s = 100 := by
  unfold token_sort_ratio
  rw [ratioL_self]
  rfl

theorem isPrefL_refl : ∀ (a : List Char), isPrefL a a = true
  | [] => rfl
  | c :: r => by
    show (c == c && isPrefL r r) = true
    rw [isPrefL_refl r, beq_self_eq_true]
    rfl

theorem isInfixL_refl (a : List Char) : isInfixL a a = true := by
  match a with
  | [] => rfl
  | c :: r =>
    show (isPrefL (c :: r) (c :: r) || isInfixL (c :: r) r) = true
    rw [isPrefL_refl]
    rfl

theorem extract_acronym_ne_empty {s : String}
    (hstrip : stripL s.data = s.data) (hne : s ≠ "") : extract_acronym s ≠ "" := by
  have hd := data_ne_nil_of_ne_empty hne
  match hsd : s.data with
  | [] => exact absurd hsd hd
  | d :: r =>
    have hdns : isSpc d = false := by
      apply stripL_head_not_spc (l := s.data)
      rw [hstrip, hsd]
      rfl
    unfold extract_acronym splitWsL
    rw [hsd, runsBy_cons_pos (p := fun c => !isSpc c) r
      (by show (!isSpc d) = true; rw [hdns]; rfl)]
    have htw : List.takeWhile (fun c => !isSpc c) (d :: r)
        = d :: List.takeWhile (fun c => !isSpc c) r :=
      List.takeWhile_cons_of_pos (by show (!isSpc d) = true; rw [hdns]; rfl)
    rw [htw]
    intro heq
    have hdata : List.filterMap List.head?
        ((d :: List.takeWhile (fun c => !isSpc c) r) ::
          runsBy (fun c => !isSpc c)
            (List.dropWhile (fun c => !isSpc c) (d :: r))) = [] :=
      congrArg String.data heq
    rw [List.filterMap_cons] at hdata
    simp only [List.head?_cons] at hdata
    cases hdata

theorem pyStripLower_fix {c : String} (hstrip : stripL c.data = c.data)
    (hgood : ∀ ch ∈ c.data, goodChar ch = true) : pyStripLower c = c := by
  unfold pyStripLower
  rw [hstrip, map_id_on (fun d hd => pyLower_good (hgood d hd))]

/-- The duplicate-score decomposition: identical normalized names and
identical non-empty normalized cities give
`100 (ratio) + 20 (substring) + 20 (acronym) + 10 (city) = 150`. -/
theorem match_score_dup {s c : String}
    (hs : stripL s.data = s.data) (hne : s ≠ "")
    (hcs : stripL c.data = c.data)
    (hcgood : ∀ ch ∈ c.data, goodChar ch = true) (hcne : c ≠ "") :
    match_score s s c c = 150 := by
  have hfix : pyStripLower c = c := pyStripLower_fix hcs hcgood
  have hacro : extract_acronym s ≠ "" := extract_acronym_ne_empty hs hne
  simp only [match_score, hfix]
  rw [token_sort_ratio_self, isInfixL_refl]
  rw [if_pos (⟨hacro, hacro⟩ : extract_acronym s ≠ "" ∧ extract_acronym s ≠ "")]
  norm_num [hcne]

theorem le_maxWith_of_mem (f : SireneRecord → Int) {r : SireneRecord} :
    ∀ (l : List SireneRecord) (s : Int), r ∈ l → f r ≤ maxWith f s l := by
  intro l
  induction l with
  | nil => intro s h; cases h
  | cons x t ih =>
    intro s h
    rcases List.mem_cons.1 h with h1 | h1
    · subst h1
      calc f r ≤ max s (f r) := le_max_right _ _
      _ ≤ maxWith f (max s (f r)) t := maxWith_ge _ _ _
    · exact ih (max s (f x)) h1

/-- C4.  If the bucket contains an exact normalized-name, exact-city
duplicate of a query with non-empty normalized name and city, then the
score computed for that candidate is exactly
`100 + 20 + 20 + 10 = 150`, and the matcher accepts a candidate at the
default threshold `100`. -/
theorem exact_duplicate_scores_150 (qname qcity : String)
    (subset : List SireneRecord) (r0 : SireneRecord)
    (hmem : r0 ∈ subset)
    (hq : normalize_name qname ≠ "")
    (hc : normalize_name qcity ≠ "")
    (hn : r0.nom_normalise = normalize_name qname)
    (hcity : normalize_name r0.libelleCommuneEtablissement = normalize_name qcity) :
    candidateScore (normalize_name qname) (normalize_name qcity) r0 = 150 ∧
    ∃ c s, match_single_company qname qcity subset 100 = some (some c, s) ∧
      100 ≤ s := by
  have hscore : candidateScore (normalize_name qname) (normalize_name qcity) r0 = 150 := by
    unfold candidateScore
    rw [hn, hcity]
    exact match_score_dup (normalize_name_stripped qname) hq
      (normalize_name_stripped qcity) (normalize_name_good qcity) hc
  refine ⟨hscore, ?_⟩
  have hmax : 150 ≤ maxWith (candidateScore (normalize_name qname)
      (normalize_name qcity)) (-1) subset := by
    have := le_maxWith_of_mem (candidateScore (normalize_name qname)
      (normalize_name qcity)) subset (-1) hmem
    omega
  obtain ⟨cbest, hfind, hfold⟩ :=
    (foldl_bestStep_char (candidateScore (normalize_name qname)
      (normalize_name qcity)) subset (-1) none).2 (by omega)
  refine ⟨cbest, maxWith (candidateScore (normalize_name qname)
      (normalize_name qcity)) (-1) subset, ?_, by omega⟩
  show (if (subset.foldl (bestStep (candidateScore (normalize_name qname)
      (normalize_name qcity))) (none, -1)).2 ≥ 100 then
    some (subset.foldl (bestStep (candidateScore (normalize_name qname)
      (normalize_name qcity))) (none, -1)) else none) = _
  rw [hfold]
  exact if_pos (by omega)

/-- Witness for C4 at the concrete query `("Acme Corp", "Lyon")`
against a bucket containing its exact normalized duplicate. -/
theorem exact_duplicate_scores_150_witness :
    candidateScore (normalize_name "Acme Corp") (normalize_name "Lyon") wDup1 = 150 ∧
    ∃ c s, match_single_company "Acme Corp" "Lyon" [wDup1] 100 = some (some c, s) ∧
      100 ≤ s :=
  exact_duplicate_scores_150 "Acme Corp" "Lyon" [wDup1] wDup1
    (by decide) (by decide) (by decide) (by decide) (by decide)

/-! Section: Dictionary lemmas for the orchestrator -/

theorem dget_append_of_some {d e : CrmRecord} {k : String} {v : Val}
    (h : dget d k = some v) : dget (d ++ e) k = some v := by
  unfold dget at h ⊢
  rw [List.find?_append]
  cases hf : d.find? (fun p => p.1 == k) with
  | none => rw [hf] at h; cases h
  | some q =>
    rw [hf] at h
    exact h

theorem dget_append_of_none {d e : CrmRecord} {k : String}
    (h : dget d k = none) : dget (d ++ e) k = dget e k := by
  unfold dget at h ⊢
  rw [List.find?_append]
  cases hf : d.find? (fun p => p.1 == k) with
  | none => rw [Option.none_or]
  | some q => rw [hf] at h; cases h

theorem dget_single_ne {k k' : String} {v : Val} (h : k ≠ k') :
    dget [(k', v)] k = none := by
  unfold dget
  rw [List.find?_cons_of_neg _ (by
    simp only [beq_iff_eq]
    exact fun hh => h hh.symm)]
  rfl

theorem dget_single_self (k : String) (v : Val) : dget [(k, v)] k = some v := by
  unfold dget
  rw [List.find?_cons_of_pos _ (by simp)]
  rfl

theorem dget_dsetdefault_ne {d : CrmRecord} {k k' : String} {v : Val}
    (h : k ≠ k') : dget (dsetdefault d k' v) k = dget d k := by
  unfold dsetdefault
  split
  · rfl
  · cases hd : dget d k with
    | none => rw [dget_append_of_none hd, dget_single_ne h]
    | some w => rw [dget_append_of_some hd]

theorem dget_dsetdefault_absent {d : CrmRecord} {k : String} {v : Val}
    (h : dget d k = none) : dget (dsetdefault d k v) k = some v := by
  unfold dsetdefault
  split
  · next hc => rw [h] at hc; cases hc
  · rw [dget_append_of_none h, dget_single_self]

theorem dget_dsetdefault_present {d : CrmRecord} {k : String} {v w : Val}
    (h : dget d k = some w) : dget (dsetdefault d k v) k = some w := by
  unfold dsetdefault
  split
  · exact h
  · next hc =>
    rw [h] at hc
    exact absurd rfl hc

theorem dget_dset_ne {k k' : String} {v : Val} (h : k ≠ k') :
    ∀ (d : CrmRecord), dget (dset d k' v) k = dget d k := by
  have hmap : ∀ (d : CrmRecord),
      dget (d.map (fun p => if p.1 == k' then (p.1, v) else p)) k = dget d k := by
    intro d
    induction d with
    | nil => rfl
    | cons q t ih =>
      unfold dget at ih ⊢
      rw [List.map_cons]
      have hkey : (if q.1 == k' then (q.1, v) else q).1 = q.1 := by
        split <;> rfl
      cases hqk : (q.1 == k) with
      | true =>
        rw [List.find?_cons_of_pos (p := fun x : String × Val => x.1 == k) _
            (by show ((if (q.1 == k') = true then (q.1, v) else q).1 == k) = true
                rw [hkey]; exact hqk),
          List.find?_cons_of_pos (p := fun x : String × Val => x.1 == k) _ hqk]
        have hq1 : q.1 = k := by simpa using hqk
        have hkk' : (q.1 == k') = false := by
          simp only [beq_eq_false_iff_ne, ne_eq]
          rw [hq1]
          exact h
        simp only [hkk', Bool.false_eq_true, if_false]
      | false =>
        rw [List.find?_cons_of_neg (p := fun x : String × Val => x.1 == k) _
            (by show ¬((if (q.1 == k') = true then (q.1, v) else q).1 == k) = true
                rw [hkey]; simp [hqk]),
          List.find?_cons_of_neg (p := fun x : String × Val => x.1 == k) _
            (by simp [hqk])]
        exact ih
  intro d
  unfold dset
  split
  · exact hmap d
  · cases hd : dget d k with
    | none => rw [dget_append_of_none hd, dget_single_ne h]
    | some w => rw [dget_append_of_some hd]

theorem mem_enrichKeys_iff {k : String} : k ∈ enrichKeys ↔
    (k = "SIRET" ∨ k = "SIREN" ∨ k = "effectif" ∨ k = "nom_match_sirene" ∨
      k = "score_match") := by
  simp [enrichKeys, enrichDefaults]

theorem dget_initDefaults_ne {rec : CrmRecord} {k : String}
    (hk : k ∉ enrichKeys) : dget (initDefaults rec) k = dget rec k := by
  rw [mem_enrichKeys_iff] at hk
  push_neg at hk
  obtain ⟨h1, h2, h3, h4, h5⟩ := hk
  show dget (dsetdefault (dsetdefault (dsetdefault (dsetdefault
    (dsetdefault rec "SIRET" (Val.str "")) "SIREN" (Val.str ""))
    "effectif" (Val.str "")) "nom_match_sirene" (Val.str ""))
    "score_match" (Val.num 0)) k = dget rec k
  rw [dget_dsetdefault_ne h5, dget_dsetdefault_ne h4, dget_dsetdefault_ne h3,
    dget_dsetdefault_ne h2, dget_dsetdefault_ne h1]

theorem dget_remplir_ne {client : CrmRecord} {row : SireneRecord}
    {heads : List SireneRecord} {nm : String} {sc : Int} {k : String}
    (hk : k ∉ enrichKeys) :
    dget (remplir_ligne_orion client row heads nm sc) k = dget client k := by
  rw [mem_enrichKeys_iff] at hk
  push_neg at hk
  obtain ⟨h1, h2, h3, h4, h5⟩ := hk
  unfold remplir_ligne_orion
  rw [dget_dset_ne h3, dget_dset_ne h5, dget_dset_ne h4, dget_dset_ne h2,
    dget_dset_ne h1]

theorem dget_updateClient_ne {sirene heads : List SireneRecord}
    {client : CrmRecord} {k : String} (hk : k ∉ enrichKeys) :
    dget (updateClient sirene heads client) k = dget client k := by
  unfold updateClient
  split
  · rfl
  · split
    · rfl
    · split
      · exact dget_remplir_ne hk
      · rfl

/-- Inside `update_CRM` the headquarters subset holds only flagged
records, so fuel 2 always completes the resolver (the `getD` default in
the model is never taken). -/
theorem fill_effectif_two_total (row : SireneRecord)
    (heads : List SireneRecord)
    (hh : ∀ x ∈ heads, x.etablissementSiege = true) :
    fill_effectif 2 row heads ≠ none := by
  rw [fill_effectif]
  split
  · simp
  · split
    · split
      · simp
      · cases hf : find_headquarters heads row.siren with
        | none => simp
        | some h' =>
          have hsiege := hh h' (List.mem_of_find?_eq_some hf)
          show fill_effectif 1 h' heads ≠ none
          by_cases hA : h'.etatAdministratifEtablissement = "A"
          · rw [fill_effectif, if_pos hA]
            simp
          · by_cases hF : h'.etatAdministratifEtablissement = "F"
            · rw [fill_effectif, if_neg hA, if_pos hF, hsiege, if_pos rfl]
              simp
            · rw [fill_effectif, if_neg hA, if_neg hF]
              simp
    · simp

theorem dget_dsetdefault_keep {d : CrmRecord} {k k' : String} {v w : Val}
    (h : dget d k = some w) : dget (dsetdefault d k' v) k = some w := by
  by_cases hk : k = k'
  · subst hk
    exact dget_dsetdefault_present h
  · rw [dget_dsetdefault_ne hk]
    exact h

theorem dget_initDefaults_some {rec : CrmRecord} {k : String} {w : Val}
    (h : dget rec k = some w) : dget (initDefaults rec) k = some w := by
  show dget (dsetdefault (dsetdefault (dsetdefault (dsetdefault
    (dsetdefault rec "SIRET" (Val.str "")) "SIREN" (Val.str ""))
    "effectif" (Val.str "")) "nom_match_sirene" (Val.str ""))
    "score_match" (Val.num 0)) k = some w
  exact dget_dsetdefault_keep (dget_dsetdefault_keep (dget_dsetdefault_keep
    (dget_dsetdefault_keep (dget_dsetdefault_keep h))))

theorem getS_initDefaults_ne {rec : CrmRecord} {k : String}
    (hk : k ∉ enrichKeys) : getS (initDefaults rec) k = getS rec k := by
  unfold getS
  rw [dget_initDefaults_ne hk]

/-- C10.  The orchestrator returns a list of the same length with
records in the same order, and every field other than the five
enrichment fields keeps its input value (the model is pure: input
records are never mutated, each output record is built from a copy). -/
theorem update_CRM_frame (sirene : List SireneRecord) (crm : List CrmRecord) :
    (update_CRM sirene crm).length = crm.length ∧
    ∀ (i : Nat) (k : String), k ∉ enrichKeys →
      ((update_CRM sirene crm).get? i).map (fun d => dget d k)
        = (crm.get? i).map (fun d => dget d k) := by
  constructor
  · show ((crm.map initDefaults).map
      (updateClient sirene (sirene.filter (·.etablissementSiege)))).length = _
    rw [List.length_map, List.length_map]
  · intro i k hk
    show (((crm.map initDefaults).map
      (updateClient sirene (sirene.filter (·.etablissementSiege)))).get? i).map
        (fun d => dget d k) = _
    rw [List.get?_map, List.get?_map]
    cases crm.get? i with
    | none => rfl
    | some rec =>
      simp only [Option.map_some']
      rw [dget_updateClient_ne hk, dget_initDefaults_ne hk]

/-- Witness for C10 at a concrete one-record CRM: the `Pays` field is
untouched by the run. -/
theorem update_CRM_frame_witness :
    ((update_CRM [] [[("Pays", Val.str "x")]]).get? 0).map (fun d => dget d "Pays")
      = (([[("Pays", Val.str "x")]] : List CrmRecord).get? 0).map
          (fun d => dget d "Pays") :=
  (update_CRM_frame [] [[("Pays", Val.str "x")]]).2 0 "Pays" (by decide)

/-- C8, counterexample.  `setdefault` keeps a pre-existing value: a
record with country `"USA"` (skipped by the country filter) and a
pre-set `SIRET` of `"zz"` ends the run with `SIRET = "zz"`, not the
default `""` the claim requires. -/
theorem update_CRM_keeps_preexisting_enrichment :
    dget ((update_CRM [] [[("Pays", Val.str "USA"), ("SIRET", Val.str "zz")]]).getD 0 [])
      "SIRET" = some (Val.str "zz") ∧ Val.str "zz" ≠ Val.str "" :=
  ⟨by decide, by decide⟩

/-- A record that fails the country filter or has no bucket for its
postal prefix passes through the matching loop unchanged. -/
theorem updateClient_skip {sirene heads : List SireneRecord} {client : CrmRecord}
    (hskip : pyUpperStr (pyStripStr (getS client "Pays")) ≠ "FRANCE" ∨
      create_sirene_by_dept sirene (strTake2 (getS client "CP")) = none) :
    updateClient sirene heads client = client := by
  unfold updateClient
  by_cases hcountry : pyUpperStr (pyStripStr (getS client "Pays")) ≠ "FRANCE"
  · rw [if_pos hcountry]
  · rw [if_neg hcountry]
    rcases hskip with hskip | hskip
    · exact absurd hskip hcountry
    · rw [hskip]

/-- C8, amended.  The orchestrator installs the five enrichment
defaults only for fields absent from the input record (`setdefault`);
a record skipped by the country filter or lacking a bucket for its
postal prefix ends the run exactly as its defaulted copy: absent
enrichment fields hold the defaults (empty strings, score 0), while
any pre-existing field value (enrichment or not) is kept unchanged. -/
theorem skipped_record_fields (sirene : List SireneRecord)
    (crm : List CrmRecord) (i : Nat) (rec : CrmRecord)
    (hi : crm.get? i = some rec)
    (hskip : pyUpperStr (pyStripStr (getS rec "Pays")) ≠ "FRANCE" ∨
      create_sirene_by_dept sirene (strTake2 (getS rec "CP")) = none) :
    (update_CRM sirene crm).get? i = some (initDefaults rec) ∧
    (∀ k v, (k, v) ∈ enrichDefaults → dget rec k = none →
      dget (initDefaults rec) k = some v) ∧
    (∀ k w, dget rec k = some w → dget (initDefaults rec) k = some w) := by
  refine ⟨?_, ?_, fun k w h => dget_initDefaults_some h⟩
  · show (((crm.map initDefaults).map
      (updateClient sirene (sirene.filter (·.etablissementSiege)))).get? i) = _
    rw [List.get?_map, List.get?_map, hi]
    simp only [Option.map_some']
    have hskip' : pyUpperStr (pyStripStr (getS (initDefaults rec) "Pays")) ≠ "FRANCE" ∨
        create_sirene_by_dept sirene (strTake2 (getS (initDefaults rec) "CP")) = none := by
      rcases hskip with h | h
      · exact Or.inl (by rw [getS_initDefaults_ne (by decide)]; exact h)
      · exact Or.inr (by rw [getS_initDefaults_ne (by decide)]; exact h)
    rw [updateClient_skip hskip']
  · intro k v hkv hnone
    show dget (dsetdefault (dsetdefault (dsetdefault (dsetdefault
      (dsetdefault rec "SIRET" (Val.str "")) "SIREN" (Val.str ""))
      "effectif" (Val.str "")) "nom_match_sirene" (Val.str ""))
      "score_match" (Val.num 0)) k = some v
    simp only [enrichDefaults, List.mem_cons, List.not_mem_nil, or_false,
      Prod.mk.injEq] at hkv
    rcases hkv with ⟨hk, hv⟩ | ⟨hk, hv⟩ | ⟨hk, hv⟩ | ⟨hk, hv⟩ | ⟨hk, hv⟩ <;>
      subst hk <;> subst hv
    · exact dget_dsetdefault_keep (dget_dsetdefault_keep (dget_dsetdefault_keep
        (dget_dsetdefault_keep (dget_dsetdefault_absent hnone))))
    · exact dget_dsetdefault_keep (dget_dsetdefault_keep (dget_dsetdefault_keep
        (dget_dsetdefault_absent (by
          rw [dget_dsetdefault_ne (by decide)]; exact hnone))))
    · exact dget_dsetdefault_keep (dget_dsetdefault_keep
        (dget_dsetdefault_absent (by
          rw [dget_dsetdefault_ne (by decide), dget_dsetdefault_ne (by decide)]
          exact hnone)))
    · exact dget_dsetdefault_keep (dget_dsetdefault_absent (by
        rw [dget_dsetdefault_ne (by decide), dget_dsetdefault_ne (by decide),
          dget_dsetdefault_ne (by decide)]
        exact hnone))
    · exact dget_dsetdefault_absent (by
        rw [dget_dsetdefault_ne (by decide), dget_dsetdefault_ne (by decide),
          dget_dsetdefault_ne (by decide), dget_dsetdefault_ne (by decide)]
        exact hnone)

/-- Witness for C8's amended theorem: a record with country `"usa"` is
skipped and ends the run as its defaulted copy. -/
theorem skipped_record_fields_witness :
    (update_CRM [] [[("Pays", Val.str "usa")]]).get? 0
      = some (initDefaults [("Pays", Val.str "usa")]) :=
  (skipped_record_fields [] [[("Pays", Val.str "usa")]] 0
    [("Pays", Val.str "usa")] rfl (Or.inl (by decide))).1

end Sirene
